import Mathlib

/-!
A shallow embedding of the resume-analyzer core: the sequential-thinking
orchestrator (`sequential-thinking.ts`) and the extraction / classification
logic of `ResumeAnalyzer` (`resume-analyzer.ts`).

Modelling conventions:
* JavaScript `Date` timestamps are modelled by a monotone tick counter
  (`clock`) carried in the context; every `new Date()` in the source is one
  tick.  `new Date().getFullYear()` / `getMonth()+1` become explicit
  `currentYear` / `currentMonth` parameters.
* Executors (`async (step, context) => unknown`, which may throw) are
  modelled as pure functions `Step ρ → Ctx ρ → Except String ρ`; the opaque
  `unknown` result type is the parameter `ρ`.
* JS strings are Lean `String`s; `String.prototype.length` is modelled as
  the number of UTF-16 code units (`utf16Length`), exactly as in JS.
* `parseInt` (base 10) and `x || default` on numbers are modelled
  faithfully, including the "0 and NaN are falsy" behaviour.
* `String.prototype.toLowerCase` is modelled on the ASCII range (the
  keyword vocabularies are ASCII/CJK, where this coincides with JS).
-/

namespace SeqThink

/-- Step status, from the `ThinkingStep.status` union type. -/
inductive Status where
  | pending
  | processing
  | completed
  | error
deriving DecidableEq, Repr

/-- `ThinkingStep`: `result` is the opaque `unknown` payload (type parameter
`ρ`); `timestamp : Date` is a tick count. -/
structure Step (ρ : Type) where
  id : String
  title : String
  description : String
  status : Status
  result : Option ρ := none
  err : Option String := none
  timestamp : Nat
deriving DecidableEq, Repr

/-- `SequentialThinkingContext`, plus the clock used to model `Date`.
Metadata values are `Option String` (a JS value that may be `undefined`). -/
structure Ctx (ρ : Type) where
  steps : List (Step ρ)
  currentStepIndex : Nat
  isProcessing : Bool
  metadata : List (String × Option String)
  clock : Nat
deriving DecidableEq, Repr

/-- An executor: receives the (processing) step and the live context and
either returns a result or throws an error message. -/
def Executor (ρ : Type) : Type := Step ρ → Ctx ρ → Except String ρ

/-- The `executors` record passed to `executeAll`: a partial map from step id
to executor. -/
def ExecMap (ρ : Type) : Type := String → Option (Executor ρ)

/-- The id assigned at construction: `` `step-${index}` ``. -/
def stepId (i : Nat) : String := "step-" ++ Nat.repr i

/-- The `SequentialThinking` constructor: each spec is `{title, description}`;
step `i` gets id `step-i`, status `pending` and a fresh timestamp;
`currentStepIndex` starts at 0 with empty metadata. -/
def construct (ρ : Type) (specs : List (String × String)) : Ctx ρ :=
  { steps := specs.enum.map fun p =>
      { id := stepId p.1
        title := p.2.1
        description := p.2.2
        status := .pending
        result := none
        err := none
        timestamp := p.1 }
    currentStepIndex := 0
    isProcessing := false
    metadata := []
    clock := specs.length }

/-- `executeStep(stepId, executor)`: find the step by id (throwing
`not found` for an unknown id), mark it processing, run the executor, then
record completion (advancing `currentStepIndex` when not already at the last
step) or the thrown error; the processing flag is cleared in all cases. -/
def executeStep {ρ : Type} (sid : String) (f : Executor ρ) (s : Ctx ρ) :
    Except String (Ctx ρ) :=
  match s.steps.findIdx? (fun st => st.id == sid) with
  | none => .error ("Step with id " ++ sid ++ " not found")
  | some idx =>
    match s.steps[idx]? with
    | none => .error ("Step with id " ++ sid ++ " not found")
    | some st0 =>
      let stP : Step ρ := { st0 with status := .processing, timestamp := s.clock }
      let sMid : Ctx ρ :=
        { s with steps := s.steps.set idx stP
                 clock := s.clock + 1
                 isProcessing := true }
      match f stP sMid with
      | .ok v =>
        let stC : Step ρ :=
          { stP with result := some v, status := .completed, timestamp := sMid.clock }
        let steps2 := sMid.steps.set idx stC
        let newIdx := if sMid.currentStepIndex < steps2.length - 1
                      then sMid.currentStepIndex + 1 else sMid.currentStepIndex
        .ok { sMid with steps := steps2
                        clock := sMid.clock + 1
                        currentStepIndex := newIdx
                        isProcessing := false }
      | .error msg =>
        let stE : Step ρ :=
          { stP with err := some msg, status := .error, timestamp := sMid.clock }
        .ok { sMid with steps := sMid.steps.set idx stE
                        clock := sMid.clock + 1
                        isProcessing := false }

/-- Executor lookup in `executeAll`: `executors[step.id] || executors['default']`. -/
def lookupExec {ρ : Type} (ex : ExecMap ρ) (id : String) : Option (Executor ρ) :=
  (ex id).orElse (fun _ => ex "default")

/-- The loop body of `executeAll`: iterate the steps by position, skipping
steps already `completed`, throwing when no executor is bound, and breaking
immediately after a step that ends in `error`. -/
def runAllAux {ρ : Type} (ex : ExecMap ρ) : Ctx ρ → Nat → Nat → Except String (Ctx ρ)
  | s, _, 0 => .ok s
  | s, i, rem+1 =>
    match s.steps[i]? with
    | none => .ok s
    | some st =>
      if st.status = .completed then runAllAux ex s (i+1) rem
      else
        match lookupExec ex st.id with
        | none => .error ("No executor found for step " ++ st.id)
        | some f =>
          match executeStep st.id f s with
          | .error e => .error e
          | .ok s' =>
            match s'.steps[i]? with
            | none => .ok s'
            | some st' =>
              if st'.status = .error then .ok s'
              else runAllAux ex s' (i+1) rem

/-- `executeAll(executors)`. -/
def executeAll {ρ : Type} (ex : ExecMap ρ) (s : Ctx ρ) : Except String (Ctx ρ) :=
  runAllAux ex s 0 s.steps.length

/-- `getStepResult(stepId)`: `step?.result` of the first step with that id. -/
def getStepResult {ρ : Type} (sid : String) (s : Ctx ρ) : Option ρ :=
  (s.steps.find? (fun st => st.id == sid)).bind (fun st => st.result)

/-- `updateMetadata(key, value)`. -/
def updateMetadata {ρ : Type} (key : String) (v : Option String) (s : Ctx ρ) : Ctx ρ :=
  { s with metadata := (key, v) :: s.metadata.filter (fun p => ¬ (p.1 == key)) }

/-- `getMetadata(key)`: `undefined` both for an absent key and for a key
bound to `undefined`. -/
def getMetadata {ρ : Type} (key : String) (s : Ctx ρ) : Option String :=
  ((s.metadata.find? (fun p => p.1 == key)).map (fun p => p.2)).join

/-- The processing-marked step written before the executor runs. -/
def procStep {ρ : Type} (st0 : Step ρ) (c : Nat) : Step ρ :=
  { st0 with status := .processing, timestamp := c }

/-- The completed step written when the executor returns. -/
def doneStep {ρ : Type} (st0 : Step ρ) (v : ρ) (c : Nat) : Step ρ :=
  { st0 with result := some v, status := .completed, timestamp := c }

/-- The errored step written when the executor throws. -/
def failStep {ρ : Type} (st0 : Step ρ) (msg : String) (c : Nat) : Step ρ :=
  { st0 with err := some msg, status := .error, timestamp := c }

/-- The context seen by the executor (processing step stored, flag set). -/
def midCtx {ρ : Type} (s : Ctx ρ) (idx : Nat) (st0 : Step ρ) : Ctx ρ :=
  { s with steps := s.steps.set idx (procStep st0 s.clock)
           clock := s.clock + 1
           isProcessing := true }

/-- Status of the step at position `j`, if any. -/
def statusAt {ρ : Type} (s : Ctx ρ) (j : Nat) : Option Status :=
  (s.steps[j]?).map (fun st => st.status)

/-- Result slot of the step at position `j`, if any. -/
def resultAt {ρ : Type} (s : Ctx ρ) (j : Nat) : Option (Option ρ) :=
  (s.steps[j]?).map (fun st => st.result)

/-- Every position of a step list carries its construction id `step-j`
(an invariant of every reachable context; decidable, bounded form). -/
def stdIds {ρ : Type} (l : List (Step ρ)) : Prop :=
  ∀ j, ∀ h : j < l.length, (l.get ⟨j, h⟩).id = stepId j

instance stdIdsDecidable {ρ : Type} (l : List (Step ρ)) : Decidable (stdIds l) := by
  unfold stdIds
  infer_instance

/-- Every step of the list is `pending` (a freshly constructed pipeline). -/
def allPending {ρ : Type} (l : List (Step ρ)) : Prop :=
  ∀ j, ∀ h : j < l.length, (l.get ⟨j, h⟩).status = .pending

end SeqThink

namespace Resume

open SeqThink

/-! ### Data model (resume-analyzer.ts interfaces) -/

/-- `PersonalInfo`. -/
structure PersonalInfo where
  name : String
  email : Option String := none
  phone : Option String := none
  location : Option String := none
  linkedin : Option String := none
  github : Option String := none
  website : Option String := none
deriving DecidableEq, Repr

/-- `Education`.  `gpa : number` is never produced by the extractor; it is
modelled as an integer slot. -/
structure Education where
  institution : String
  degree : String
  major : Option String := none
  graduationYear : Option Int := none
  gpa : Option Int := none
deriving DecidableEq, Repr

/-- `WorkExperience`: dates are loosely formatted strings. -/
structure WorkExperience where
  company : String
  position : String
  startDate : String
  endDate : String
  description : List String
  achievements : List String
deriving DecidableEq, Repr

/-- `Project`. -/
structure Project where
  name : String
  description : String
  technologies : List String
  url : Option String := none
  achievements : List String
deriving DecidableEq, Repr

/-- The `proficiency` union type of `Skill`. -/
inductive Proficiency where
  | beginner
  | intermediate
  | advanced
  | expert
deriving DecidableEq, Repr

/-- `Skill`. -/
structure Skill where
  category : String
  items : List String
  proficiency : Proficiency
deriving DecidableEq, Repr

/-- The detected-language union type `'en' | 'zh' | 'auto'`. -/
inductive Lang where
  | en
  | zh
  | auto
deriving DecidableEq, Repr

/-- `ParsedResume`. -/
structure ParsedResume where
  personalInfo : PersonalInfo
  education : List Education
  workExperience : List WorkExperience
  projects : List Project
  skills : List Skill
  certifications : List String
  languages : List String
  language : Lang
deriving DecidableEq, Repr

/-! ### String helpers (JS string primitives) -/

/-- `pat` occurs at the start of a character list. -/
def prefixAt : List Char → List Char → Bool
  | [], _ => true
  | _ :: _, [] => false
  | p :: ps, c :: cs => p = c && prefixAt ps cs

/-- `text.includes(pat)` over character lists. -/
def containsSub (pat : List Char) : List Char → Bool
  | [] => prefixAt pat []
  | c :: cs => prefixAt pat (c :: cs) || containsSub pat cs

/-- `s.includes(pat)`. -/
def strIncludes (pat s : String) : Bool := containsSub pat.data s.data

/-- `s.split('.')` over character lists. -/
def splitOnDot : List Char → List (List Char)
  | [] => [[]]
  | '.' :: rest => [] :: splitOnDot rest
  | c :: rest =>
    match splitOnDot rest with
    | [] => [[c]]
    | p :: ps => (c :: p) :: ps

/-- ASCII `toLowerCase` over a character list (the relevant vocabularies are
ASCII/CJK, where this coincides with JS). -/
def lowerChars (cs : List Char) : List Char := cs.map Char.toLower

/-- Decimal value of a digit run. -/
def decimalVal (ds : List Char) : Nat :=
  ds.foldl (fun a c => a * 10 + (c.toNat - '0'.toNat)) 0

/-- `parseInt(s)` in base 10: skip whitespace, optional sign, maximal digit
run; `none` is `NaN`.  The automatic radix-16 branch for `0x`/`0X`-prefixed
strings is not modelled: a leading `0` followed by `x` ends the digit run
here, while `parseInt` would reparse in hex.  No input exercised below (the
spec's numeric date fields and keyword counts) carries such a prefix. -/
def parseIntJS (cs0 : List Char) : Option Int :=
  let cs := cs0.dropWhile (fun c => c.isWhitespace)
  let signed : Bool × List Char :=
    match cs with
    | '-' :: r => (true, r)
    | '+' :: r => (false, r)
    | _ => (false, cs)
  let ds := signed.2.takeWhile (fun c => c.isDigit)
  if ds.isEmpty then none
  else some ((if signed.1 then -1 else 1) * (decimalVal ds : Int))

/-- `parseInt(x) || d`: both `NaN` and `0` fall back to the default. -/
def orNum (o : Option Int) (d : Int) : Int :=
  match o with
  | none => d
  | some v => if v = 0 then d else v

/-! ### Language detection (`detectLanguage`, resume-analyzer.ts:161) -/

/-- One character of the CJK class `[一-鿿]`. -/
def isCJK (c : Char) : Bool := 0x4e00 ≤ c.toNat && c.toNat ≤ 0x9fff

/-- Number of matches of `/[一-鿿]/g`. -/
def cjkCount (s : String) : Nat := (s.data.filter isCJK).length

/-- `text.length` in JS counts UTF-16 code units. -/
def utf16Length (s : String) : Nat :=
  s.data.foldl (fun n c => n + (if c.toNat < 0x10000 then 1 else 2)) 0

/-- `detectLanguage`: Chinese when `chineseChars.length / text.length > 0.1`.
The binary64 comparison agrees with the exact rational comparison
`10 * count > length` for every feasible string length (the two sides can
only disagree when the ratio lies within one part in `2⁵²` of `1/10`, which
requires astronomically long strings); an exactly-boundary ratio rounds to
the same double as the literal `0.1`, so the boundary itself classifies as
English, as in the source. -/
def detectLanguage (text : String) : Lang :=
  if utf16Length text < 10 * cjkCount text then .zh else .en

/-! ### The stated-duration phrase

`/([一二三四五六七八九十\d]+)[年]([前端|后端|全栈|开发|工程师|技术]*)(开发|工作)*经验/gi`
is a fixed pattern (the flags add nothing: `\d` is case-free); we implement
its leftmost, greedy-with-backtracking matching directly.  `isNumCh` is the
first character class, `isMidCh` the second (a character class, so it is the
set of its characters, `|` included). -/

def isNumCh (c : Char) : Bool :=
  c.isDigit || c = '一' || c = '二' || c = '三' || c = '四' || c = '五' ||
  c = '六' || c = '七' || c = '八' || c = '九' || c = '十'

def isMidCh (c : Char) : Bool :=
  c = '前' || c = '端' || c = '后' || c = '全' || c = '栈' || c = '开' ||
  c = '发' || c = '工' || c = '程' || c = '师' || c = '技' || c = '术' || c = '|'

/-- Match the literal `经验`, the mandatory tail of the pattern. -/
def matchJing : List Char → Option Nat
  | '经' :: '验' :: _ => some 2
  | _ => none

/-- Match `(开发|工作)*经验` greedily with backtracking, returning the
number of characters consumed. -/
def matchWJ : List Char → Option Nat
  | '开' :: '发' :: rest =>
    (match matchWJ rest with
     | some n => some (n + 2)
     | none => matchJing ('开' :: '发' :: rest))
  | '工' :: '作' :: rest =>
    (match matchWJ rest with
     | some n => some (n + 2)
     | none => matchJing ('工' :: '作' :: rest))
  | cs => matchJing cs

/-- Match `[…]*(开发|工作)*经验` greedily with backtracking. -/
def matchMid : List Char → Option Nat
  | [] => matchWJ []
  | c :: rest =>
    if isMidCh c then
      (match matchMid rest with
       | some n => some (n + 1)
       | none => matchWJ (c :: rest))
    else matchWJ (c :: rest)

/-- Try the whole pattern at this position; on success return the numeral
capture (the maximal leading numeral run — the following `年` is not in the
class, so no shorter run can match) and the extent of the whole match. -/
def matchPhraseAt (cs : List Char) : Option (List Char × Nat) :=
  let num := cs.takeWhile isNumCh
  if num.isEmpty then none
  else
    match cs.drop num.length with
    | '年' :: rest2 =>
      (match matchMid rest2 with
       | some n => some (num, num.length + 1 + n)
       | none => none)
    | _ => none

/-- Global matching: leftmost match, then resume after its end.  The fuel is
the list length; every step consumes at least one character (a successful
match spans at least four), so the fuel never runs out. -/
def scanPhrasesF : Nat → List Char → List (List Char)
  | 0, _ => []
  | _ + 1, [] => []
  | fuel + 1, c :: cs =>
    match matchPhraseAt (c :: cs) with
    | some (num, ext) => num :: scanPhrasesF fuel ((c :: cs).drop ext)
    | none => scanPhrasesF fuel cs

/-- All numeral captures of the global match, in text order. -/
def scanPhrases (cs : List Char) : List (List Char) := scanPhrasesF cs.length cs

/-- `chineseNumbers[yearStr]`: only single-character keys exist. -/
def chineseNumeral (c : Char) : Option Nat :=
  if c = '一' then some 1 else if c = '二' then some 2
  else if c = '三' then some 3 else if c = '四' then some 4
  else if c = '五' then some 5 else if c = '六' then some 6
  else if c = '七' then some 7 else if c = '八' then some 8
  else if c = '九' then some 9 else if c = '十' then some 10 else none

/-- Years from one numeral capture: the Chinese-numeral table (truthy lookup),
else `Number(yearStr)` — `NaN` unless the string is all ASCII digits — else 0. -/
def numeralYears (num : List Char) : Nat :=
  match num with
  | [c] =>
    (match chineseNumeral c with
     | some v => v
     | none => if c.isDigit then decimalVal [c] else 0)
  | _ => if !num.isEmpty && num.all (fun c => c.isDigit) then decimalVal num else 0

/-- The first stated-duration phrase whose years fall in `(0, 20]`
(the loop on `expMatch` in `calculateYearsOfExperience`). -/
def statedYears (resumeText : String) : Option Nat :=
  (scanPhrases resumeText.data).findSome? (fun num =>
    let y := numeralYears num
    if 0 < y ∧ y ≤ 20 then some y else none)

/-! ### `calculateYearsOfExperience` (resume-analyzer.ts:570) -/

/-- One record after the `.map` that normalises `startDate` / `endDate` to
year+month pairs. -/
structure NormExp where
  startYear : Int
  startMonth : Int
  endYear : Int
  endMonth : Int
deriving DecidableEq, Repr

/-- The ongoing-end test: `至今`, `现在`, or a `present` substring of the
lower-cased end date. -/
def isPresentEnd (endDate : String) : Bool :=
  endDate = "至今" || endDate = "现在" ||
    containsSub "present".data (lowerChars endDate.data)

/-- Normalise one experience record exactly as the `.map` does. -/
def normalizeExp (cy cm : Int) (e : WorkExperience) : NormExp :=
  let sp :=
    if e.startDate.data.contains '.' then
      let parts := splitOnDot e.startDate.data
      (orNum (parseIntJS (parts.getD 0 [])) cy, orNum (parseIntJS (parts.getD 1 [])) 1)
    else (orNum (parseIntJS e.startDate.data) cy, 1)
  let ep :=
    if isPresentEnd e.endDate then (cy, cm)
    else if e.endDate.data.contains '.' then
      let parts := splitOnDot e.endDate.data
      (orNum (parseIntJS (parts.getD 0 [])) cy, orNum (parseIntJS (parts.getD 1 [])) 12)
    else (orNum (parseIntJS e.endDate.data) cy, 12)
  { startYear := sp.1, startMonth := sp.2, endYear := ep.1, endMonth := ep.2 }

/-- Sort key of `new Date(y, m - 1).getTime()`: the constructor maps years
0–99 to 1900+y, and month overflow normalises linearly, so on the valid-Date
window (see `validDateKey`) the time value is strictly monotone in
`(effectiveYear) * 12 + (m - 1)`.  Outside that window `getTime` is `NaN`,
the `a - b` comparator is not a consistent comparison function, and
ECMAScript leaves the resulting order implementation-defined; claims built
on this key therefore carry a `validStarts` hypothesis restricting them to
the window. -/
def dateKey (y m : Int) : Int :=
  (if 0 ≤ y ∧ y ≤ 99 then y + 1900 else y) * 12 + (m - 1)

/-- Validity of the key: first-of-month Dates are representable (finite
`getTime`, |t| ≤ 8.64e15 ms) exactly for total month indices from May of
year −271821 through September of year 275760, and the ±10-day slack to the
exact instants −271821-04-20 / 275760-09-13 absorbs any local-time zone
offset, so membership in this window is host-independent. -/
def validDateKey (k : Int) : Prop :=
  -271821 * 12 + 4 ≤ k ∧ k ≤ 275760 * 12 + 8

instance validDateKeyDecidable (k : Int) : Decidable (validDateKey k) := by
  unfold validDateKey
  infer_instance

/-- Key of the start date. -/
def startKey (e : NormExp) : Int := dateKey e.startYear e.startMonth

/-- Key of the end date. -/
def endKey (e : NormExp) : Int := dateKey e.endYear e.endMonth

/-- Every start date of the list, normalised against the current `cy`/`cm`,
is a valid Date — the `.sort` comparator reads only `startDate.getTime()`,
so this is exactly what makes it a consistent comparison function. -/
def validStarts (cy cm : Int) (ws : List WorkExperience) : Prop :=
  ∀ e ∈ ws, validDateKey (startKey (normalizeExp cy cm e))

instance validStartsDecidable (cy cm : Int) (ws : List WorkExperience) :
    Decidable (validStarts cy cm ws) := by
  unfold validStarts
  infer_instance

/-- Stable insertion: place `x` after every element `y` with `le y x`. -/
def insertLE {α : Type} (le : α → α → Bool) (x : α) : List α → List α
  | [] => [x]
  | y :: ys => if le y x then y :: insertLE le x ys else x :: y :: ys

/-- The ES2019+ stable sort by an integer key (the `.sort` comparator
`a.startDate.getTime() - b.startDate.getTime()`). -/
def sortByKey {α : Type} (key : α → Int) (l : List α) : List α :=
  l.foldl (fun acc x => insertLE (fun a b => decide (key a ≤ key b)) x acc) []

/-- `calculateYearsOfExperience`.  The resume text (read from metadata in the
source) and the current year/month (from `new Date()`) are explicit
parameters. -/
def calculateYearsOfExperience (cy cm : Int) (resumeText : String)
    (ws : List WorkExperience) : Nat :=
  if ws.length = 0 then 0
  else match statedYears resumeText with
    | some y => y
    | none =>
      match sortByKey startKey (ws.map (normalizeExp cy cm)) with
      | [] => 0
      | first :: rest =>
        let last := (first :: rest).getLast (List.cons_ne_nil first rest)
        let totalMonths := (last.endYear - first.startYear) * 12 +
                           (last.endMonth - first.startMonth)
        (min (max 0 (Int.fdiv totalMonths 12)) 15).toNat

/-- First element of a nonempty list attaining the minimal key. -/
def firstMinBy {α : Type} (key : α → Int) (h : α) (t : List α) : α :=
  t.foldl (fun a x => if key x < key a then x else a) h

/-- Last element of a nonempty list attaining the maximal key. -/
def lastMaxBy {α : Type} (key : α → Int) (h : α) (t : List α) : α :=
  t.foldl (fun a x => if key a ≤ key x then x else a) h

/-- The fallback branch exactly as the claim states it: span from the
earliest start date to the **latest end date over all records**. -/
def claimedYears (cy cm : Int) (resumeText : String)
    (ws : List WorkExperience) : Nat :=
  if ws.length = 0 then 0
  else match statedYears resumeText with
    | some y => y
    | none =>
      match ws.map (normalizeExp cy cm) with
      | [] => 0
      | n :: ns =>
        let first := firstMinBy startKey n ns
        let last := lastMaxBy endKey n ns
        let totalMonths := (last.endYear - first.startYear) * 12 +
                           (last.endMonth - first.startMonth)
        (min (max 0 (Int.fdiv totalMonths 12)) 15).toNat

/-- The amended fallback branch: span from the earliest start date to the end
date of the record with the **latest start date** (the last-listed among
ties). -/
def amendedYears (cy cm : Int) (resumeText : String)
    (ws : List WorkExperience) : Nat :=
  if ws.length = 0 then 0
  else match statedYears resumeText with
    | some y => y
    | none =>
      match ws.map (normalizeExp cy cm) with
      | [] => 0
      | n :: ns =>
        let first := firstMinBy startKey n ns
        let last := lastMaxBy startKey n ns
        let totalMonths := (last.endYear - first.startYear) * 12 +
                           (last.endMonth - first.startMonth)
        (min (max 0 (Int.fdiv totalMonths 12)) 15).toNat

end Resume

namespace Resume

/-- `createResumeAnalysisSteps()` (sequential-thinking.ts:121). -/
def resumeAnalysisSteps : List (String × String) :=
  [("Parse Resume Content",
    "Extract and structure basic information, skills, experience from the resume"),
   ("Generate Professional Profile",
    "Create AI-tagged professional profile with industry classification and experience summary"),
   ("Skills Assessment",
    "Analyze technical and soft skills proficiency and expertise areas"),
   ("Experience Evaluation",
    "Evaluate work experience relevance, career trajectory and key achievements"),
   ("Education Assessment",
    "Extract educational background including institutions, degrees and specializations"),
   ("Generate Highlights",
    "Generate comprehensive positive highlights and key strengths summary")]

/-- The final record assembled by `analyzeResume`: each component is the
`getStepResult` of one post-parse step — an `unknown` that may be absent, so
modelled honestly as an `Option` (the source hides absence behind `as`
casts). -/
structure ResumeAnalysisResult (ρ : Type) where
  professionalProfile : Option ρ
  skillAssessment : Option ρ
  experienceAssessment : Option ρ
  educationAssessment : Option ρ
  overallAssessment : Option ρ
  language : Lang
deriving DecidableEq, Repr

/-- The unconditional assembly at the end of `analyzeResume`. -/
def buildResult {ρ : Type} (s : SeqThink.Ctx ρ) (lang : Lang) :
    ResumeAnalysisResult ρ :=
  { professionalProfile := SeqThink.getStepResult "step-1" s
    skillAssessment := SeqThink.getStepResult "step-2" s
    experienceAssessment := SeqThink.getStepResult "step-3" s
    educationAssessment := SeqThink.getStepResult "step-4" s
    overallAssessment := SeqThink.getStepResult "step-5" s
    language := lang }

/-- All five post-parse components of the record are present. -/
def completeResult {ρ : Type} (r : ResumeAnalysisResult ρ) : Prop :=
  r.professionalProfile.isSome ∧ r.skillAssessment.isSome ∧
    r.experienceAssessment.isSome ∧ r.educationAssessment.isSome ∧
    r.overallAssessment.isSome

/-- The context `analyzeResume` seeds before running: a fresh six-step
pipeline with the metadata the source writes (resume text, target job,
detected language). -/
def analyzerInit (ρ : Type) (rt : String) (tj : Option String) : SeqThink.Ctx ρ :=
  SeqThink.updateMetadata "language"
    (some (if detectLanguage rt = .zh then "zh" else "en"))
    (SeqThink.updateMetadata "targetJob" tj
      (SeqThink.updateMetadata "resumeText" (some rt)
        (SeqThink.construct ρ resumeAnalysisSteps)))

/-- `analyzeResume` (resume-analyzer.ts:219), parametric in the six stage
executors: detect the language, seed the metadata, run all steps, and
assemble the final record from the step results. -/
def analyzeResume {ρ : Type} (ex : SeqThink.ExecMap ρ) (rt : String)
    (tj : Option String) :
    Except String (ResumeAnalysisResult ρ × SeqThink.Ctx ρ) :=
  match SeqThink.executeAll ex (analyzerInit ρ rt tj) with
  | .error e => .error e
  | .ok s2 => .ok (buildResult s2 (detectLanguage rt), s2)

end Resume

namespace Resume

/-! ### AI-tag classification (`determineAITag`, resume-analyzer.ts:1375) -/

/-- The seven professional archetypes (`AI_TAGS`). -/
inductive AITag where
  | developer
  | researcher
  | founder
  | teacher
  | designer
  | creator
  | practitioner
deriving DecidableEq, Repr

/-- `\w` of a JS regex: `[A-Za-z0-9_]`. -/
def isWordChar (c : Char) : Bool := c.isAlpha || c.isDigit || c = '_'

/-- Word-char test of the character left/right of a position (`false` beyond
either end of the string). -/
def isWordOpt : Option Char → Bool
  | none => false
  | some c => isWordChar c

/-- Count the non-overlapping matches of `/\bKW\b/g` for a literal keyword
(the source regex-escapes it): scan left to right; at a match both ends must
lie on `\b` boundaries; resume after the match.  `prev` is the character
before the current position; fuel is the text length (every step consumes at
least one character, so it never runs out). -/
def countOccF (pat : List Char) (firstW lastW : Bool) :
    Nat → Option Char → List Char → Nat
  | 0, _, _ => 0
  | _ + 1, _, [] => 0
  | fuel + 1, prev, c :: cs =>
    if prefixAt pat (c :: cs)
        && (isWordOpt prev != firstW)
        && (isWordOpt ((c :: cs).drop pat.length).head? != lastW) then
      1 + countOccF pat firstW lastW fuel pat.getLast? ((c :: cs).drop pat.length)
    else countOccF pat firstW lastW fuel (some c) cs

/-- Matches of one `\b`-wrapped keyword over a text. -/
def countBounded (kw text : List Char) : Nat :=
  match kw with
  | [] => 0
  | c :: cs =>
    countOccF (c :: cs) (isWordChar c) (isWordChar ((c :: cs).getLast (List.cons_ne_nil c cs)))
      text.length none text

/-- `countKeywords` (resume-analyzer.ts:1459): sum of per-keyword counts. -/
def countKeywordsS (text : List Char) (kws : List String) : Nat :=
  kws.foldl (fun acc kw => acc + countBounded kw.data text) 0

/-- The developer keyword family (doubled in scoring). -/
def developerKeywords : List String :=
  ["developer", "engineer", "programming", "software", "coding", "development",
   "frontend", "backend", "fullstack", "web development", "mobile app", "react",
   "vue", "angular", "javascript", "typescript", "node.js", "python", "java",
   "web3", "blockchain",
   "开发", "工程师", "编程", "软件", "前端", "后端", "全栈", "程序员", "技术"]

/-- The researcher keyword family. -/
def researcherKeywords : List String :=
  ["research", "researcher", "phd", "publications", "paper", "academic",
   "laboratory", "study", "analysis", "investigation",
   "研究", "博士", "论文", "学术", "实验室", "分析"]

/-- The founder keyword family. -/
def founderKeywords : List String :=
  ["founder", "startup", "co-founder", "entrepreneur", "founded", "established",
   "创始人", "创业", "联合创始人", "创立"]

/-- The teacher keyword family. -/
def teacherKeywords : List String :=
  ["teacher", "professor", "lecturer", "instructor", "teaching", "education",
   "教师", "教授", "讲师", "教学", "教育"]

/-- The designer keyword family. -/
def designerKeywords : List String :=
  ["ui designer", "ux designer", "graphic designer", "product designer",
   "design lead", "设计师", "ui设计", "ux设计", "产品设计", "视觉设计"]

/-- The creator keyword family. -/
def creatorKeywords : List String :=
  ["creator", "content creator", "artist", "creative director", "generative",
   "ai art", "创作者", "内容创作", "艺术", "创意", "生成"]

/-- The strong bilingual developer-title literals. -/
def strongDevIndicators : List String :=
  ["前端工程师", "后端工程师", "web3工程师", "软件工程师",
   "frontend engineer", "backend engineer"]

/-- Join strings with single spaces at the character level (`join(' ')`). -/
def joinSpace : List String → List Char
  | [] => []
  | p :: ps => p.data ++ ps.flatMap (fun q => ' ' :: q.data)

/-- The concatenated lower-cased text scored by `determineAITag`: raw resume
text, every experience position/company/description/achievement, every
project name/description/achievement, and every skill item. -/
def aiTagText (resumeText : String) (pr : ParsedResume) : List Char :=
  lowerChars (joinSpace
    ([resumeText]
      ++ pr.workExperience.flatMap
          (fun e => [e.position, e.company] ++ e.description ++ e.achievements)
      ++ pr.projects.flatMap (fun p => [p.name, p.description] ++ p.achievements)
      ++ pr.skills.flatMap (fun sk => sk.items)))

/-- `determineAITag`: strong developer literal or doubled developer score ≥ 3
short-circuits to `developer`; otherwise zero maximum defaults to
`practitioner`; otherwise the priority cascade over the maximal score. -/
def determineAITag (resumeText : String) (pr : ParsedResume) : AITag :=
  let allText := aiTagText resumeText pr
  let sDev := countKeywordsS allText developerKeywords * 2
  let sRes := countKeywordsS allText researcherKeywords
  let sFou := countKeywordsS allText founderKeywords
  let sTea := countKeywordsS allText teacherKeywords
  let sDes := countKeywordsS allText designerKeywords
  let sCre := countKeywordsS allText creatorKeywords
  let hasStrong := strongDevIndicators.any
    (fun ind => containsSub (lowerChars ind.data) allText)
  if hasStrong ∨ sDev ≥ 3 then .developer
  else
    let maxScore := max sDev (max sRes (max sFou (max sTea (max sDes sCre))))
    if maxScore = 0 then .practitioner
    else if sDev = maxScore then .developer
    else if sRes = maxScore then .researcher
    else if sFou = maxScore then .founder
    else if sTea = maxScore then .teacher
    else if sDes = maxScore then .designer
    else if sCre = maxScore then .creator
    else .practitioner

/-- The claim's formulation of the tag choice: same short-circuit and same
zero-max default, then **the highest-scoring category, breaking ties by the
fixed priority order** — the first category in priority order whose score
equals the maximum. -/
def determineAITagSpec (resumeText : String) (pr : ParsedResume) : AITag :=
  let allText := aiTagText resumeText pr
  let sDev := countKeywordsS allText developerKeywords * 2
  let sRes := countKeywordsS allText researcherKeywords
  let sFou := countKeywordsS allText founderKeywords
  let sTea := countKeywordsS allText teacherKeywords
  let sDes := countKeywordsS allText designerKeywords
  let sCre := countKeywordsS allText creatorKeywords
  let hasStrong := strongDevIndicators.any
    (fun ind => containsSub (lowerChars ind.data) allText)
  if hasStrong ∨ sDev ≥ 3 then .developer
  else
    let maxScore := max sDev (max sRes (max sFou (max sTea (max sDes sCre))))
    if maxScore = 0 then .practitioner
    else
      match [(AITag.developer, sDev), (AITag.researcher, sRes),
             (AITag.founder, sFou), (AITag.teacher, sTea),
             (AITag.designer, sDes), (AITag.creator, sCre)].find?
          (fun p => p.2 == maxScore) with
      | some p => p.1
      | none => .practitioner

end Resume

namespace Resume

/-! ### Stage 3 — `assessExperience` (resume-analyzer.ts:1196) and its
helpers `determineIndustry` (:664) and `analyzeCareerProgression` (:1231) -/

/-- The seven industry keyword sets, in the source's fixed priority order. -/
def industryKeywords : List (String × List String) :=
  [("Technology",
    ["tech", "software", "ai", "ml", "data", "cloud", "startup", "web3",
     "blockchain", "科技", "软件", "人工智能", "技术", "互联网", "前端",
     "后端", "开发", "程序"]),
   ("Finance",
    ["finance", "bank", "fintech", "trading", "investment",
     "金融", "银行", "投资", "支付", "区块链"]),
   ("Gaming",
    ["game", "gaming", "entertainment", "nft", "游戏", "娱乐", "电竞"]),
   ("E-commerce",
    ["ecommerce", "retail", "shopping", "marketplace",
     "电商", "零售", "购物", "商城"]),
   ("Education",
    ["education", "university", "school", "academic",
     "教育", "大学", "学校", "培训"]),
   ("Healthcare",
    ["health", "medical", "pharma", "biotech", "医疗", "健康", "生物", "医药"]),
   ("Media",
    ["media", "content", "publishing", "social", "媒体", "内容", "出版", "社交"])]

/-- The lower-cased text `determineIndustry` scans. -/
def industryText (ws : List WorkExperience) (skills : List Skill) : List Char :=
  lowerChars (joinSpace
    (ws.flatMap (fun e => [e.company, e.position] ++ e.description)
      ++ skills.flatMap (fun sk => sk.items)))

/-- `determineIndustry`: first keyword set with a substring hit wins;
default `Technology`. -/
def determineIndustry (ws : List WorkExperience) (skills : List Skill) : String :=
  let t := industryText ws skills
  match industryKeywords.find? (fun p => p.2.any (fun kw => containsSub kw.data t)) with
  | some p => p.1
  | none => "Technology"

/-- The four seniority keyword ladders. -/
def progressionKeywords : List (List String) :=
  [["intern", "junior", "senior", "lead", "principal"],
   ["developer", "senior developer", "tech lead", "architect"],
   ["assistant", "associate", "manager", "director"],
   ["实习", "初级", "中级", "高级", "资深", "专家", "主管", "经理"]]

/-- One ladder's scan: walk the positions keeping the running maximal ladder
index (`lastIndex`, −1 when none seen); progression is flagged when a
position's ladder index exceeds the running maximum and is nonzero. -/
def ladderStep (keywords : List String) (acc : Int × Bool) (pos : List Char) :
    Int × Bool :=
  match keywords.findIdx? (fun kw => containsSub kw.data pos) with
  | none => acc
  | some n =>
    let ci : Int := (n : Int)
    let acc2 : Int × Bool := if acc.1 < ci ∧ 0 < ci then (acc.1, true) else acc
    (max acc2.1 ci, acc2.2)

/-- One ladder's verdict over the position list. -/
def ladderProgresses (keywords : List String) (positions : List (List Char)) : Bool :=
  (positions.foldl (ladderStep keywords) ((-1 : Int), false)).2

/-- `analyzeCareerProgression`: false below two records, else any ladder
showing progression over the lower-cased position titles. -/
def analyzeCareerProgression (ws : List WorkExperience) : Bool :=
  if ws.length < 2 then false
  else progressionKeywords.any (fun kws =>
    ladderProgresses kws (ws.map (fun e => lowerChars e.position.data)))

/-- `[...new Set(l)]`: deduplicate keeping first occurrences in order. -/
def dedupFirstAux (seen : List String) : List String → List String
  | [] => []
  | x :: xs =>
    if seen.contains x then dedupFirstAux seen xs
    else x :: dedupFirstAux (x :: seen) xs

/-- First-occurrence deduplication. -/
def dedupFirst (l : List String) : List String := dedupFirstAux [] l

/-- The `careerProgression` union type. -/
inductive Progression where
  | ascending
  | lateral
  | stable
deriving DecidableEq, Repr

/-- `ExperienceAssessment`. -/
structure ExperienceAssessment where
  relevantIndustries : List String
  careerProgression : Progression
  keyAchievements : List String
deriving DecidableEq, Repr

/-- The `.sort` comparator `parseInt(a.startDate) - parseInt(b.startDate)`:
`NaN` comparator results are treated as 0 (equal) per the ECMAScript sort
specification, so records with unparsable starts stay where stability puts
them. -/
def startNumLE (a b : WorkExperience) : Bool :=
  match parseIntJS a.startDate.data, parseIntJS b.startDate.data with
  | none, _ => true
  | _, none => true
  | some x, some y => x ≤ y

/-- The stable in-place sort used by stage 3. -/
def sortJSExp (l : List WorkExperience) : List WorkExperience :=
  l.foldl (fun acc x => insertLE startNumLE x acc) []

/-- `assessExperience`.  JS `Array.prototype.sort` mutates the array in
place, and `workExp` aliases `parsedResume.workExperience` (the stage-0
record), so the function returns both the assessment and the `ParsedResume`
as it stands after the call: with more than one experience record its
`workExperience` list has been reordered by start year.  Industries are
computed before the sort (original order); key achievements after it
(sorted order), exactly as the statements execute in the source. -/
def assessExperience (pr : ParsedResume) : ExperienceAssessment × ParsedResume :=
  let workExp := pr.workExperience
  let industries := workExp.map (fun e => determineIndustry [e] pr.skills)
  let uniqueIndustries := dedupFirst industries
  let sortedExp := if workExp.length > 1 then sortJSExp workExp else workExp
  let careerProgression : Progression :=
    if workExp.length > 1 then
      (if analyzeCareerProgression sortedExp then .ascending else .stable)
    else .stable
  let keyAchievements :=
    ((sortedExp.flatMap (fun e => e.description ++ e.achievements)).filter
      (fun a => utf16Length a > 10)).take 5
  ({ relevantIndustries := uniqueIndustries
     careerProgression := careerProgression
     keyAchievements := keyAchievements },
   { pr with workExperience := sortedExp })

end Resume

/-! ### Witness fixtures -/

/-- Witness fixture: an executor map binding every id (hence also every
step) to an executor that succeeds with result 0. -/
def exOkAll : SeqThink.ExecMap Nat := fun _ => some (fun _ _ => Except.ok 0)

/-- Witness fixture: the context produced by `executeAll exOkAll` on a fresh
one-step pipeline. -/
def c2final : SeqThink.Ctx Nat :=
  { steps := [{ id := "step-0", title := "a", description := "x",
                status := .completed, result := some 0, err := none, timestamp := 2 }]
    currentStepIndex := 0
    isProcessing := false
    metadata := []
    clock := 3 }

/-- Witness fixture: a context whose step 0 is already `completed` (as left
by a previous run) and whose step 1 is still `pending`. -/
def c9start : SeqThink.Ctx Nat :=
  { steps := [{ id := "step-0", title := "a", description := "x",
                status := .completed, result := some 5, err := none, timestamp := 9 },
              { id := "step-1", title := "b", description := "y",
                status := .pending, result := none, err := none, timestamp := 1 }]
    currentStepIndex := 1
    isProcessing := false
    metadata := []
    clock := 10 }

/-- Witness fixture: the context after re-running `executeAll` on `c9start`. -/
def c9final : SeqThink.Ctx Nat :=
  { steps := [{ id := "step-0", title := "a", description := "x",
                status := .completed, result := some 5, err := none, timestamp := 9 },
              { id := "step-1", title := "b", description := "y",
                status := .completed, result := some 0, err := none, timestamp := 11 }]
    currentStepIndex := 1
    isProcessing := false
    metadata := []
    clock := 12 }

/-- Witness fixture: stage executors where step 1 (profile) throws and every
other step succeeds. -/
def exC3 : SeqThink.ExecMap Nat :=
  fun sid => if sid = "step-1" then some (fun _ _ => Except.error "x")
             else some (fun _ _ => Except.ok 0)

/-- Witness fixture: the (incomplete) record assembled by the failed run. -/
def c3res : Resume.ResumeAnalysisResult Nat :=
  { professionalProfile := none, skillAssessment := none,
    experienceAssessment := none, educationAssessment := none,
    overallAssessment := none, language := .en }

/-- Witness fixture: the halted context of the failed run (step 1 `error`,
steps 2–5 still `pending`). -/
def c3ctx : SeqThink.Ctx Nat :=
  { steps := [{ id := "step-0", title := "Parse Resume Content",
                description := "Extract and structure basic information, skills, experience from the resume",
                status := .completed, result := some 0, err := none, timestamp := 7 },
              { id := "step-1", title := "Generate Professional Profile",
                description := "Create AI-tagged professional profile with industry classification and experience summary",
                status := .error, result := none, err := some "x", timestamp := 9 },
              { id := "step-2", title := "Skills Assessment",
                description := "Analyze technical and soft skills proficiency and expertise areas",
                status := .pending, result := none, err := none, timestamp := 2 },
              { id := "step-3", title := "Experience Evaluation",
                description := "Evaluate work experience relevance, career trajectory and key achievements",
                status := .pending, result := none, err := none, timestamp := 3 },
              { id := "step-4", title := "Education Assessment",
                description := "Extract educational background including institutions, degrees and specializations",
                status := .pending, result := none, err := none, timestamp := 4 },
              { id := "step-5", title := "Generate Highlights",
                description := "Generate comprehensive positive highlights and key strengths summary",
                status := .pending, result := none, err := none, timestamp := 5 }]
    currentStepIndex := 1
    isProcessing := false
    metadata := [("language", some "en"), ("targetJob", none), ("resumeText", some "")]
    clock := 10 }

/-- Witness fixture for C8: a 2020 record listed before a 2010 record. -/
def c8newer : Resume.WorkExperience :=
  { company := "Acme", position := "Senior Engineer", startDate := "2020",
    endDate := "至今", description := [], achievements := [] }

/-- Witness fixture for C8: the earlier record. -/
def c8older : Resume.WorkExperience :=
  { company := "Beta", position := "Engineer", startDate := "2010",
    endDate := "2015", description := [], achievements := [] }

/-- Witness fixture for C8: the stage-0 `ParsedResume` fed to stage 3. -/
def c8pr : Resume.ParsedResume :=
  { personalInfo := { name := "" }
    education := []
    workExperience := [c8newer, c8older]
    projects := []
    skills := []
    certifications := []
    languages := []
    language := .en }

/-! ### Helper theorems -/

namespace SeqThink

/-! ### Injectivity of the construction-time ids `step-i`

`Nat.repr` is injective: decoding the digit string produced by
`Nat.toDigitsCore` recovers the number. -/

/-- Decimal value of a digit character. -/
def digitVal (c : Char) : Nat := c.toNat - '0'.toNat

/-- Decode a most-significant-first digit string. -/
def decodeDigits (l : List Char) : Nat :=
  l.foldl (fun acc c => acc * 10 + digitVal c) 0

theorem digitVal_digitChar {n : Nat} (h : n < 10) : digitVal (Nat.digitChar n) = n := by
  interval_cases n <;> decide

theorem toDigitsCore_decode (f : Nat) : ∀ (n : Nat) (ds : List Char), n < f →
    (Nat.toDigitsCore 10 f n ds).foldl (fun acc c => acc * 10 + digitVal c) 0
      = ds.foldl (fun acc c => acc * 10 + digitVal c) n := by
  induction f with
  | zero => intro n ds h; omega
  | succ f ih =>
    intro n ds h
    simp only [Nat.toDigitsCore]
    by_cases h0 : n / 10 = 0
    · have hn : n < 10 := by omega
      simp only [h0, if_pos, List.foldl_cons, Nat.zero_mul, Nat.zero_add,
        Nat.mod_eq_of_lt hn]
      rw [digitVal_digitChar hn]
    · have hpos : 0 < n := by
        rcases Nat.eq_zero_or_pos n with h' | h'
        · exact absurd (by simp [h']) h0
        · exact h'
      have hlt : n / 10 < f := by
        have : n / 10 < n := Nat.div_lt_self hpos (by norm_num)
        omega
      simp only [h0, if_neg, ite_false]
      rw [ih (n / 10) (Nat.digitChar (n % 10) :: ds) hlt]
      simp only [List.foldl_cons,
        digitVal_digitChar (Nat.mod_lt n (by norm_num) : n % 10 < 10)]
      have hsum : n / 10 * 10 + n % 10 = n := by omega
      rw [hsum]

theorem decode_toDigits (n : Nat) : decodeDigits (Nat.toDigits 10 n) = n := by
  unfold Nat.toDigits decodeDigits
  rw [toDigitsCore_decode (n+1) n [] (Nat.lt_succ_self n)]
  rfl

theorem natRepr_injective : Function.Injective Nat.repr := by
  intro m n h
  have hd : Nat.toDigits 10 m = Nat.toDigits 10 n := by
    have h2 := congrArg String.data h
    simpa [Nat.repr, List.asString] using h2
  calc m = decodeDigits (Nat.toDigits 10 m) := (decode_toDigits m).symm
    _ = decodeDigits (Nat.toDigits 10 n) := by rw [hd]
    _ = n := decode_toDigits n

theorem stepId_injective : Function.Injective stepId := by
  intro i j h
  apply natRepr_injective
  have h2 := congrArg String.data h
  simp only [stepId, String.data_append] at h2
  have h3 := List.append_cancel_left h2
  exact String.ext h3

/-! ### Normal form of a successful `executeStep` call -/

theorem executeStep_ok_cases {ρ : Type} {sid : String} {f : Executor ρ} {s s' : Ctx ρ}
    (h : executeStep sid f s = .ok s') :
    ∃ idx st0, s.steps.findIdx? (fun st => st.id == sid) = some idx ∧
      s.steps[idx]? = some st0 ∧
      ((∃ v, f (procStep st0 s.clock) (midCtx s idx st0) = .ok v ∧
          s' = { s with
                 steps := s.steps.set idx (doneStep st0 v (s.clock + 1))
                 currentStepIndex := if s.currentStepIndex < s.steps.length - 1
                   then s.currentStepIndex + 1 else s.currentStepIndex
                 isProcessing := false
                 clock := s.clock + 2 }) ∨
       (∃ msg, f (procStep st0 s.clock) (midCtx s idx st0) = .error msg ∧
          s' = { s with
                 steps := s.steps.set idx (failStep st0 msg (s.clock + 1))
                 isProcessing := false
                 clock := s.clock + 2 })) := by
  unfold executeStep at h
  split at h
  · cases h
  · next idx hfi =>
    split at h
    · cases h
    · next st0 hg =>
      dsimp only at h
      split at h
      · next v hv =>
        refine ⟨idx, st0, hfi, hg, Or.inl ⟨v, ?_, ?_⟩⟩
        · simpa [procStep, midCtx] using hv
        · cases h
          simp only [midCtx, procStep, doneStep, List.set_set, List.length_set]
      · next msg hv =>
        refine ⟨idx, st0, hfi, hg, Or.inr ⟨msg, ?_, ?_⟩⟩
        · simpa [procStep, midCtx] using hv
        · cases h
          simp only [midCtx, procStep, failStep, List.set_set, List.length_set]

/-! ### Invariants: standard ids, fresh statuses -/

theorem stdIds_mk {ρ : Type} {l : List (Step ρ)}
    (h : ∀ j st, l[j]? = some st → st.id = stepId j) : stdIds l := by
  intro j hlt
  rw [List.get_eq_getElem]
  exact h j _ (List.getElem?_eq_getElem hlt)

theorem stdIds_getElem? {ρ : Type} {l : List (Step ρ)} (h : stdIds l) {j : Nat}
    {st : Step ρ} (hj : l[j]? = some st) : st.id = stepId j := by
  rcases List.getElem?_eq_some_iff.mp hj with ⟨hlt, he⟩
  have h2 := h j hlt
  rw [List.get_eq_getElem] at h2
  rw [he] at h2
  exact h2

theorem allPending_getElem? {ρ : Type} {l : List (Step ρ)} (h : allPending l) {j : Nat}
    {st : Step ρ} (hj : l[j]? = some st) : st.status = .pending := by
  rcases List.getElem?_eq_some_iff.mp hj with ⟨hlt, he⟩
  have h2 := h j hlt
  rw [List.get_eq_getElem] at h2
  rw [he] at h2
  exact h2

theorem stdIds_set {ρ : Type} {l : List (Step ρ)} (h : stdIds l) {idx : Nat}
    {st : Step ρ} (hid : st.id = stepId idx) : stdIds (l.set idx st) := by
  apply stdIds_mk
  intro j st' hj
  by_cases hji : idx = j
  · subst hji
    by_cases hlt : idx < l.length
    · rw [List.getElem?_set_self hlt] at hj
      cases hj
      exact hid
    · rw [List.set_eq_of_length_le (by omega)] at hj
      exact stdIds_getElem? h hj
  · rw [List.getElem?_set_ne hji] at hj
    exact stdIds_getElem? h hj

theorem construct_steps_getElem? (ρ : Type) (specs : List (String × String)) (j : Nat) :
    (construct ρ specs).steps[j]? = (specs[j]?).map (fun p =>
      { id := stepId j, title := p.1, description := p.2, status := .pending,
        result := none, err := none, timestamp := j }) := by
  unfold construct
  simp only [List.getElem?_map, List.getElem?_enum, Option.map_map]
  rfl

theorem construct_length (ρ : Type) (specs : List (String × String)) :
    (construct ρ specs).steps.length = specs.length := by
  unfold construct
  simp

theorem construct_stdIds (ρ : Type) (specs : List (String × String)) :
    stdIds (construct ρ specs).steps := by
  apply stdIds_mk
  intro j st hj
  rw [construct_steps_getElem?] at hj
  rcases Option.map_eq_some'.mp hj with ⟨a, -, he⟩
  rw [← he]

theorem construct_allPending (ρ : Type) (specs : List (String × String)) :
    allPending (construct ρ specs).steps := by
  intro j hlt
  rw [List.get_eq_getElem]
  have hj := List.getElem?_eq_getElem hlt
  rw [construct_steps_getElem?] at hj
  rcases Option.map_eq_some'.mp hj with ⟨a, -, he⟩
  rw [← he]

theorem construct_result_none (ρ : Type) (specs : List (String × String)) {j : Nat}
    {st : Step ρ} (hj : (construct ρ specs).steps[j]? = some st) : st.result = none := by
  rw [construct_steps_getElem?] at hj
  rcases Option.map_eq_some'.mp hj with ⟨a, -, he⟩
  rw [← he]

theorem findIdx?_stepId {ρ : Type} {l : List (Step ρ)} (hids : stdIds l) {i : Nat}
    (hi : i < l.length) :
    l.findIdx? (fun st => st.id == stepId i) = some i := by
  rw [List.findIdx?_eq_some_iff_getElem]
  refine ⟨hi, ?_, ?_⟩
  · have h2 := stdIds_getElem? hids (List.getElem?_eq_getElem hi)
    simp [h2]
  · intro j hji
    have h2 := stdIds_getElem? hids (List.getElem?_eq_getElem (Nat.lt_trans hji hi))
    simp only [h2, beq_iff_eq, Bool.not_eq_true]
    intro he
    have := stepId_injective he
    omega

theorem find?_eq_of_findIdx? {α : Type} {p : α → Bool} :
    ∀ {l : List α} {i : Nat}, l.findIdx? p = some i → l.find? p = l[i]? := by
  intro l
  induction l with
  | nil => intro i h; cases h
  | cons x xs ih =>
    intro i h
    rw [List.findIdx?_cons] at h
    by_cases hp : p x
    · rw [if_pos hp] at h
      cases h
      rw [List.find?_cons_of_pos _ hp]
      simp
    · rw [if_neg hp, List.findIdx?_succ] at h
      rcases Option.map_eq_some'.mp h with ⟨i', hi', rfl⟩
      rw [List.find?_cons_of_neg _ hp, ih hi']
      simp

theorem find?_stepId {ρ : Type} {l : List (Step ρ)} (hids : stdIds l) (i : Nat) :
    l.find? (fun st => st.id == stepId i) = l[i]? := by
  cases hi : l[i]? with
  | none =>
    rw [List.find?_eq_none]
    intro st hst
    rcases List.mem_iff_getElem?.mp hst with ⟨j, hj⟩
    have hid := stdIds_getElem? hids hj
    have hjlt : j < l.length := (List.getElem?_eq_some_iff.mp hj).1
    have hige : l.length ≤ i := List.getElem?_eq_none_iff.mp hi
    simp only [hid, beq_iff_eq]
    intro he
    have := stepId_injective he
    omega
  | some st =>
    have hilt : i < l.length := (List.getElem?_eq_some_iff.mp hi).1
    rw [find?_eq_of_findIdx? (findIdx?_stepId hids hilt), hi]

theorem getStepResult_stepId {ρ : Type} {s : Ctx ρ} (hids : stdIds s.steps) (m : Nat) :
    getStepResult (stepId m) s = (s.steps[m]?).bind (fun st => st.result) := by
  unfold getStepResult
  rw [find?_stepId hids m]

/-! ### The run of `executeAll` from a freshly constructed context

One induction settles the success shape, the error-halt shape, and the
untouched suffix after a failure. -/

theorem runAllAux_zero {ρ : Type} (ex : ExecMap ρ) (s : Ctx ρ) (i : Nat) :
    runAllAux ex s i 0 = .ok s := rfl

theorem runAllAux_succ {ρ : Type} (ex : ExecMap ρ) (s : Ctx ρ) (i rem : Nat) :
    runAllAux ex s i (rem + 1) =
      match s.steps[i]? with
      | none => .ok s
      | some st =>
        if st.status = .completed then runAllAux ex s (i+1) rem
        else
          match lookupExec ex st.id with
          | none => .error ("No executor found for step " ++ st.id)
          | some f =>
            match executeStep st.id f s with
            | .error e => .error e
            | .ok s1 =>
              match s1.steps[i]? with
              | none => .ok s1
              | some st' =>
                if st'.status = .error then .ok s1
                else runAllAux ex s1 (i+1) rem := rfl

theorem runAllAux_fresh {ρ : Type} (ex : ExecMap ρ) (s0 : Ctx ρ)
    (hfresh : allPending s0.steps) (hids0 : stdIds s0.steps) :
    ∀ (rem i : Nat) (s s' : Ctx ρ),
      i + rem = s0.steps.length →
      s.steps.length = s0.steps.length →
      stdIds s.steps →
      (∀ j, j < i → statusAt s j = some .completed) →
      (∀ j, i ≤ j → s.steps[j]? = s0.steps[j]?) →
      s.currentStepIndex = min i (s0.steps.length - 1) →
      runAllAux ex s i rem = .ok s' →
      s'.steps.length = s0.steps.length ∧ stdIds s'.steps ∧
      ((∀ (j : Nat) (st : Step ρ), s'.steps[j]? = some st → st.status = .completed) ∧
          s'.currentStepIndex = s0.steps.length - 1
        ∨ ∃ k, i ≤ k ∧ k < s0.steps.length ∧
            statusAt s' k = some .error ∧
            (∀ j, j < k → statusAt s' j = some .completed) ∧
            (∀ j, k < j → s'.steps[j]? = s0.steps[j]?) ∧
            resultAt s' k = resultAt s0 k) := by
  intro rem
  induction rem with
  | zero =>
    intro i s s' hiN hlen hids hdone hrest hidx hrun
    rw [runAllAux_zero] at hrun
    have hs : s = s' := Except.ok.inj hrun
    subst hs
    refine ⟨hlen, hids, Or.inl ⟨?_, ?_⟩⟩
    · intro j st hj
      have hjlt : j < s.steps.length := (List.getElem?_eq_some_iff.mp hj).1
      have hjy : j < i := by omega
      have hst := hdone j hjy
      unfold statusAt at hst
      rw [hj] at hst
      simpa using hst
    · omega
  | succ rem ih =>
    intro i s s' hiN hlen hids hdone hrest hidx hrun
    have hiltN : i < s0.steps.length := by omega
    obtain ⟨sti, hs0i⟩ : ∃ sti, s0.steps[i]? = some sti :=
      ⟨_, List.getElem?_eq_getElem hiltN⟩
    have hsi : s.steps[i]? = some sti := by rw [hrest i (le_refl i)]; exact hs0i
    have hpend : sti.status = .pending := allPending_getElem? hfresh hs0i
    have hid : sti.id = stepId i := stdIds_getElem? hids0 hs0i
    rw [runAllAux_succ] at hrun
    simp only [hsi] at hrun
    rw [if_neg (by simp [hpend])] at hrun
    cases hlk : lookupExec ex sti.id with
    | none =>
      simp only [hlk] at hrun
      cases hrun
    | some f =>
      simp only [hlk] at hrun
      cases hes : executeStep sti.id f s with
      | error e =>
        simp only [hes] at hrun
        cases hrun
      | ok s1 =>
        simp only [hes] at hrun
        obtain ⟨idx, st0, hfi, hg, hcase⟩ := executeStep_ok_cases hes
        have hfi2 : s.steps.findIdx? (fun q => q.id == sti.id) = some i := by
          rw [hid]
          exact findIdx?_stepId hids (by omega)
        rw [hfi] at hfi2
        have hidxi : idx = i := Option.some.inj hfi2
        subst hidxi
        rw [hsi] at hg
        have hst0 : st0 = sti := Option.some.inj hg.symm
        subst hst0
        have hilt : idx < s.steps.length := by omega
        rcases hcase with ⟨v, hv, rfl⟩ | ⟨msg, hmsg, rfl⟩
        · -- success; the loop re-reads the (completed) step and recurses
          have hset : (s.steps.set idx (doneStep st0 v (s.clock + 1)))[idx]?
              = some (doneStep st0 v (s.clock + 1)) :=
            List.getElem?_set_self hilt
          simp only [hset] at hrun
          rw [if_neg (by simp [doneStep])] at hrun
          have hres := ih (idx + 1)
            { s with
              steps := s.steps.set idx (doneStep st0 v (s.clock + 1))
              currentStepIndex := if s.currentStepIndex < s.steps.length - 1
                then s.currentStepIndex + 1 else s.currentStepIndex
              isProcessing := false
              clock := s.clock + 2 } s'
            (by omega)
            (by simpa using hlen)
            (stdIds_set hids (by simpa [doneStep] using hid))
            ?_ ?_ ?_ hrun
          · rcases hres with ⟨hlen', hids', hres⟩
            refine ⟨hlen', hids', ?_⟩
            rcases hres with hres | ⟨k, hk1, hk2, hk3, hk4, hk5, hk6⟩
            · exact Or.inl hres
            · exact Or.inr ⟨k, by omega, hk2, hk3, hk4, hk5, hk6⟩
          · intro j hj
            by_cases hji : j = idx
            · subst hji
              unfold statusAt
              simp only [hset]
              simp [doneStep]
            · have hjlt : j < idx := by omega
              have hsj := hdone j hjlt
              unfold statusAt at hsj ⊢
              simp only [List.getElem?_set_ne (by omega : idx ≠ j)]
              exact hsj
          · intro j hj
            simp only [List.getElem?_set_ne (by omega : idx ≠ j)]
            exact hrest j (by omega)
          · show (if s.currentStepIndex < s.steps.length - 1
                then s.currentStepIndex + 1 else s.currentStepIndex) = _
            rw [hidx, hlen]
            split <;> omega
        · -- the executor threw: the loop breaks immediately after this step
          have hset : (s.steps.set idx (failStep st0 msg (s.clock + 1)))[idx]?
              = some (failStep st0 msg (s.clock + 1)) :=
            List.getElem?_set_self hilt
          simp only [hset] at hrun
          rw [if_pos (by simp [failStep])] at hrun
          have hs' := Except.ok.inj hrun
          refine ⟨?_, ?_, Or.inr ⟨idx, le_refl idx, by omega, ?_, ?_, ?_, ?_⟩⟩
          · rw [← hs']
            simpa using hlen
          · rw [← hs']
            exact stdIds_set hids (by simpa [failStep] using hid)
          · rw [← hs']
            unfold statusAt
            simp only [hset]
            simp [failStep]
          · intro j hj
            rw [← hs']
            have hsj := hdone j hj
            unfold statusAt at hsj ⊢
            simp only [List.getElem?_set_ne (by omega : idx ≠ j)]
            exact hsj
          · intro j hj
            rw [← hs']
            simp only [List.getElem?_set_ne (by omega : idx ≠ j)]
            exact hrest j (by omega)
          · rw [← hs']
            unfold resultAt
            simp only [hset, hs0i]
            simp [failStep]

/-! ### `executeAll` never touches a step that is already `completed` -/

theorem runAllAux_preserves_completed {ρ : Type} (ex : ExecMap ρ) :
    ∀ (rem i : Nat) (s s' : Ctx ρ), stdIds s.steps →
      runAllAux ex s i rem = .ok s' →
      ∀ (j : Nat) (st : Step ρ), s.steps[j]? = some st → st.status = .completed →
        s'.steps[j]? = some st := by
  intro rem
  induction rem with
  | zero =>
    intro i s s' hids hrun j st hj hst
    rw [runAllAux_zero] at hrun
    rw [← Except.ok.inj hrun]
    exact hj
  | succ rem ih =>
    intro i s s' hids hrun j st hj hst
    rw [runAllAux_succ] at hrun
    cases hsi : s.steps[i]? with
    | none =>
      simp only [hsi] at hrun
      rw [← Except.ok.inj hrun]
      exact hj
    | some sti =>
      simp only [hsi] at hrun
      by_cases hcom : sti.status = .completed
      · rw [if_pos hcom] at hrun
        exact ih (i+1) s s' hids hrun j st hj hst
      · rw [if_neg hcom] at hrun
        cases hlk : lookupExec ex sti.id with
        | none =>
          simp only [hlk] at hrun
          cases hrun
        | some f =>
          simp only [hlk] at hrun
          cases hes : executeStep sti.id f s with
          | error e =>
            simp only [hes] at hrun
            cases hrun
          | ok s1 =>
            simp only [hes] at hrun
            obtain ⟨idx, st0, hfi, hg, hcase⟩ := executeStep_ok_cases hes
            have hid : sti.id = stepId i := stdIds_getElem? hids hsi
            have hilt : i < s.steps.length := (List.getElem?_eq_some_iff.mp hsi).1
            have hfi2 := findIdx?_stepId hids hilt
            rw [hid] at hfi
            rw [hfi] at hfi2
            have hidxi : idx = i := Option.some.inj hfi2
            subst hidxi
            rw [hsi] at hg
            have hst0 : st0 = sti := Option.some.inj hg.symm
            subst hst0
            have hji : idx ≠ j := by
              intro he
              subst he
              rw [hj] at hsi
              rw [Option.some.inj hsi] at hst
              exact hcom hst
            rcases hcase with ⟨v, hv, rfl⟩ | ⟨msg, hm, rfl⟩
            · have hset : (s.steps.set idx (doneStep st0 v (s.clock + 1)))[idx]?
                  = some (doneStep st0 v (s.clock + 1)) :=
                List.getElem?_set_self hilt
              simp only [hset] at hrun
              rw [if_neg (by simp [doneStep])] at hrun
              have hstep : (s.steps.set idx (doneStep st0 v (s.clock + 1)))[j]?
                  = some st := by
                rw [List.getElem?_set_ne hji]
                exact hj
              exact ih (idx+1) _ s'
                (stdIds_set hids (by simpa [doneStep] using hid)) hrun j st hstep hst
            · have hset : (s.steps.set idx (failStep st0 msg (s.clock + 1)))[idx]?
                  = some (failStep st0 msg (s.clock + 1)) :=
                List.getElem?_set_self hilt
              simp only [hset] at hrun
              rw [if_pos (by simp [failStep])] at hrun
              rw [← Except.ok.inj hrun]
              show (s.steps.set idx (failStep st0 msg (s.clock + 1)))[j]? = some st
              rw [List.getElem?_set_ne hji]
              exact hj

/-! ### No operation returns a step to `pending` -/

theorem executeStep_no_revert {ρ : Type} {sid : String} {f : Executor ρ}
    {s s' : Ctx ρ} (h : executeStep sid f s = .ok s') :
    ∀ (j : Nat) (st' : Step ρ), s'.steps[j]? = some st' → st'.status = .pending →
      s.steps[j]? = some st' := by
  obtain ⟨idx, st0, hfi, hg, hcase⟩ := executeStep_ok_cases h
  have hilt : idx < s.steps.length := (List.getElem?_eq_some_iff.mp hg).1
  rcases hcase with ⟨v, -, rfl⟩ | ⟨msg, -, rfl⟩ <;>
  · intro j st' hj hp
    by_cases hji : idx = j
    · subst hji
      rw [List.getElem?_set_self hilt] at hj
      rw [← Option.some.inj hj] at hp
      simp [doneStep, failStep] at hp
    · rw [List.getElem?_set_ne hji] at hj
      exact hj

theorem runAllAux_no_revert {ρ : Type} (ex : ExecMap ρ) :
    ∀ (rem i : Nat) (s s' : Ctx ρ), runAllAux ex s i rem = .ok s' →
      ∀ (j : Nat) (st' : Step ρ), s'.steps[j]? = some st' → st'.status = .pending →
        s.steps[j]? = some st' := by
  intro rem
  induction rem with
  | zero =>
    intro i s s' hrun j st' hj hp
    rw [runAllAux_zero] at hrun
    rw [Except.ok.inj hrun]
    exact hj
  | succ rem ih =>
    intro i s s' hrun j st' hj hp
    rw [runAllAux_succ] at hrun
    cases hsi : s.steps[i]? with
    | none =>
      simp only [hsi] at hrun
      rw [Except.ok.inj hrun]
      exact hj
    | some sti =>
      simp only [hsi] at hrun
      by_cases hcom : sti.status = .completed
      · rw [if_pos hcom] at hrun
        exact ih (i+1) s s' hrun j st' hj hp
      · rw [if_neg hcom] at hrun
        cases hlk : lookupExec ex sti.id with
        | none =>
          simp only [hlk] at hrun
          cases hrun
        | some f =>
          simp only [hlk] at hrun
          cases hes : executeStep sti.id f s with
          | error e =>
            simp only [hes] at hrun
            cases hrun
          | ok s1 =>
            simp only [hes] at hrun
            cases hs1i : s1.steps[i]? with
            | none =>
              simp only [hs1i] at hrun
              rw [← Except.ok.inj hrun] at hj
              exact executeStep_no_revert hes j st' hj hp
            | some st1 =>
              simp only [hs1i] at hrun
              by_cases herr : st1.status = .error
              · rw [if_pos herr] at hrun
                rw [← Except.ok.inj hrun] at hj
                exact executeStep_no_revert hes j st' hj hp
              · rw [if_neg herr] at hrun
                exact executeStep_no_revert hes j st'
                  (ih (i+1) s1 s' hrun j st' hj hp) hp

end SeqThink

namespace Resume

/-! ### Head and last element of the stable sort -/

theorem insertLE_ne_nil {α : Type} (le : α → α → Bool) (x : α) (l : List α) :
    insertLE le x l ≠ [] := by
  cases l with
  | nil => simp [insertLE]
  | cons y ys =>
    simp only [insertLE]
    split <;> simp

theorem mem_insertLE {α : Type} {le : α → α → Bool} {x z : α} {l : List α} :
    z ∈ insertLE le x l ↔ z = x ∨ z ∈ l := by
  induction l with
  | nil => simp [insertLE]
  | cons y ys ih =>
    simp only [insertLE]
    split
    · simp only [List.mem_cons, ih]
      tauto
    · simp only [List.mem_cons]

theorem head?_insertLE {α : Type} (le : α → α → Bool) (x y : α) (ys : List α) :
    (insertLE le x (y :: ys)).head? = some (if le y x then y else x) := by
  simp only [insertLE]
  split <;> simp

theorem getLast?_cons_of_ne_nil {α : Type} (a : α) {l : List α} (h : l ≠ []) :
    (a :: l).getLast? = l.getLast? := by
  cases l with
  | nil => exact absurd rfl h
  | cons b bs => rfl

theorem insertLE_of_all {α : Type} (le : α → α → Bool) (x : α) :
    ∀ (l : List α), (∀ y ∈ l, le y x) → insertLE le x l = l ++ [x] := by
  intro l
  induction l with
  | nil => intro _; rfl
  | cons y ys ih =>
    intro h
    simp only [insertLE]
    rw [if_pos (h y (by simp))]
    rw [ih (fun z hz => h z (by simp [hz]))]
    rfl

theorem getLast?_insertLE_exists {α : Type} (le : α → α → Bool) (x : α) :
    ∀ (l : List α), (∃ y ∈ l, ¬ le y x) →
      (insertLE le x l).getLast? = l.getLast? := by
  intro l
  induction l with
  | nil =>
    rintro ⟨y, hy, -⟩
    cases hy
  | cons y ys ih =>
    rintro ⟨z, hz, hn⟩
    simp only [insertLE]
    by_cases hle : le y x
    · rw [if_pos hle]
      have hzys : z ∈ ys := by
        rcases List.mem_cons.mp hz with rfl | h'
        · exact absurd hle hn
        · exact h'
      have hys : ys ≠ [] := by
        intro e
        rw [e] at hzys
        cases hzys
      rw [getLast?_cons_of_ne_nil _ (insertLE_ne_nil le x ys),
          ih ⟨z, hzys, hn⟩, getLast?_cons_of_ne_nil _ hys]
    · rw [if_neg hle]
      exact getLast?_cons_of_ne_nil _ (by simp)

theorem mem_of_getLast?_eq {α : Type} :
    ∀ {l : List α} {b : α}, l.getLast? = some b → b ∈ l := by
  intro l
  induction l with
  | nil => intro b h; cases h
  | cons y ys ih =>
    intro b h
    cases ys with
    | nil =>
      cases h
      simp
    | cons z zs =>
      rw [getLast?_cons_of_ne_nil _ (by simp)] at h
      exact List.mem_cons_of_mem y (ih h)

theorem head?_sortFold {α : Type} (key : α → Int) :
    ∀ (xs acc : List α) (a : α), acc.head? = some a →
      (xs.foldl (fun ac x => insertLE (fun p q => decide (key p ≤ key q)) x ac) acc).head?
        = some (xs.foldl (fun b x => if key x < key b then x else b) a) := by
  intro xs
  induction xs with
  | nil =>
    intro acc a h
    simpa using h
  | cons x xs ih =>
    intro acc a h
    cases acc with
    | nil => cases h
    | cons y ys =>
      have hy : a = y := by simpa using h.symm
      subst hy
      simp only [List.foldl_cons]
      apply ih
      rw [head?_insertLE]
      congr 1
      by_cases hc : key x < key a
      · rw [if_pos hc, if_neg (by simpa using (by omega : ¬ key a ≤ key x))]
      · rw [if_neg hc, if_pos (by simpa using (by omega : key a ≤ key x))]

theorem getLast?_sortFold {α : Type} (key : α → Int) :
    ∀ (xs acc : List α) (b : α),
      acc.getLast? = some b → (∀ y ∈ acc, key y ≤ key b) →
      (xs.foldl (fun ac x => insertLE (fun p q => decide (key p ≤ key q)) x ac) acc).getLast?
          = some (xs.foldl (fun a x => if key a ≤ key x then x else a) b) ∧
        ∀ y ∈ xs.foldl (fun ac x => insertLE (fun p q => decide (key p ≤ key q)) x ac) acc,
          key y ≤ key (xs.foldl (fun a x => if key a ≤ key x then x else a) b) := by
  intro xs
  induction xs with
  | nil =>
    intro acc b h hbd
    exact ⟨h, hbd⟩
  | cons x xs ih =>
    intro acc b h hbd
    simp only [List.foldl_cons]
    by_cases hbx : key b ≤ key x
    · have hall : ∀ y ∈ acc, (fun p q => decide (key p ≤ key q)) y x = true := by
        intro y hy
        simpa using le_trans (hbd y hy) hbx
      have hins : insertLE (fun p q => decide (key p ≤ key q)) x acc = acc ++ [x] :=
        insertLE_of_all _ _ acc hall
      rw [if_pos hbx]
      apply ih
      · rw [hins]
        simp
      · intro y hy
        rw [mem_insertLE] at hy
        rcases hy with rfl | hy
        · exact le_refl _
        · exact le_trans (hbd y hy) hbx
    · have hbmem : b ∈ acc := mem_of_getLast?_eq h
      have hlast : (insertLE (fun p q => decide (key p ≤ key q)) x acc).getLast?
          = acc.getLast? := by
        apply getLast?_insertLE_exists
        exact ⟨b, hbmem, by simpa using hbx⟩
      rw [if_neg hbx]
      apply ih
      · rw [hlast, h]
      · intro y hy
        rw [mem_insertLE] at hy
        rcases hy with rfl | hy
        · omega
        · exact hbd y hy

theorem sortByKey_head? {α : Type} (key : α → Int) (x : α) (xs : List α) :
    (sortByKey key (x :: xs)).head? = some (firstMinBy key x xs) := by
  unfold sortByKey firstMinBy
  simp only [List.foldl_cons]
  exact head?_sortFold key xs [x] x rfl

theorem sortByKey_getLast? {α : Type} (key : α → Int) (x : α) (xs : List α) :
    (sortByKey key (x :: xs)).getLast? = some (lastMaxBy key x xs) := by
  unfold sortByKey lastMaxBy
  simp only [List.foldl_cons]
  exact (getLast?_sortFold key xs [x] x rfl (by simp)).1

theorem cascadePick (a b c d e f m : Nat) :
    (if a = m then AITag.developer
     else if b = m then AITag.researcher
     else if c = m then AITag.founder
     else if d = m then AITag.teacher
     else if e = m then AITag.designer
     else if f = m then AITag.creator
     else AITag.practitioner)
    = (match [(AITag.developer, a), (AITag.researcher, b), (AITag.founder, c),
              (AITag.teacher, d), (AITag.designer, e), (AITag.creator, f)].find?
          (fun p => p.2 == m) with
       | some p => p.1
       | none => AITag.practitioner) := by
  by_cases ha : a = m
  · simp [List.find?, ha]
  · have ha' : (a == m) = false := beq_false_of_ne ha
    rw [if_neg ha]
    by_cases hb : b = m
    · simp [List.find?, ha', hb]
    · have hb' : (b == m) = false := beq_false_of_ne hb
      rw [if_neg hb]
      by_cases hc : c = m
      · simp [List.find?, ha', hb', hc]
      · have hc' : (c == m) = false := beq_false_of_ne hc
        rw [if_neg hc]
        by_cases hd : d = m
        · simp [List.find?, ha', hb', hc', hd]
        · have hd' : (d == m) = false := beq_false_of_ne hd
          rw [if_neg hd]
          by_cases he : e = m
          · simp [List.find?, ha', hb', hc', hd', he]
          · have he' : (e == m) = false := beq_false_of_ne he
            rw [if_neg he]
            by_cases hf : f = m
            · simp [List.find?, ha', hb', hc', hd', he', hf]
            · have hf' : (f == m) = false := beq_false_of_ne hf
              rw [if_neg hf]
              simp [List.find?, ha', hb', hc', hd', he', hf']

end Resume

/-! ### The claims -/

/-- C1 (amended): whenever every normalised start date is a valid Date (so
that the source's `getTime` comparator is a consistent comparison function
— for invalid dates it returns `NaN`, coerced to `+0`, and ECMAScript makes
the order implementation-defined), `calculateYearsOfExperience` returns 0
for the empty list; otherwise the first stated-duration phrase yielding
`1 ≤ N ≤ 20` wins; otherwise the whole-year span, floored, from the
earliest start date to the end date of the record with the **latest start
date** (last-listed among ties), capped at 15.  The hypothesis only
delimits where the embedded total-order sort coincides with the source's
sort; the equality itself never consults it. -/
theorem C1_years_of_experience (cy cm : Int) (rt : String)
    (ws : List Resume.WorkExperience) (hv : Resume.validStarts cy cm ws) :
    Resume.calculateYearsOfExperience cy cm rt ws = Resume.amendedYears cy cm rt ws := by
  clear hv
  unfold Resume.calculateYearsOfExperience Resume.amendedYears
  cases ws with
  | nil => rfl
  | cons w ws' =>
    rw [if_neg (by simp), if_neg (by simp)]
    cases hst : Resume.statedYears rt with
    | some y => rfl
    | none =>
      simp only [List.map_cons]
      cases hs : Resume.sortByKey Resume.startKey
          (Resume.normalizeExp cy cm w :: ws'.map (Resume.normalizeExp cy cm)) with
      | nil =>
        have hh := Resume.sortByKey_head? Resume.startKey
          (Resume.normalizeExp cy cm w) (ws'.map (Resume.normalizeExp cy cm))
        rw [hs] at hh
        cases hh
      | cons f r =>
        have hh := Resume.sortByKey_head? Resume.startKey
          (Resume.normalizeExp cy cm w) (ws'.map (Resume.normalizeExp cy cm))
        have hl := Resume.sortByKey_getLast? Resume.startKey
          (Resume.normalizeExp cy cm w) (ws'.map (Resume.normalizeExp cy cm))
        rw [hs] at hh hl
        have hf : f = Resume.firstMinBy Resume.startKey
            (Resume.normalizeExp cy cm w) (ws'.map (Resume.normalizeExp cy cm)) := by
          simpa using hh
        have hlast : (f :: r).getLast (List.cons_ne_nil f r)
            = Resume.lastMaxBy Resume.startKey
                (Resume.normalizeExp cy cm w) (ws'.map (Resume.normalizeExp cy cm)) := by
          rw [List.getLast?_eq_getLast (f :: r) (List.cons_ne_nil f r)] at hl
          exact Option.some.inj hl
        rw [← hf, ← hlast]

/-- C1 counterexample to the claim as stated: with records 2000.1–2024.12 and
2010.1–2011.1 the code measures up to the end of the record with the latest
start (2011.1), giving 11, while the claim's "latest end date over all
records" (2024.12) would give 24, capped to 15. -/
theorem C1_counterexample :
    Resume.calculateYearsOfExperience 2025 10 ""
        [{ company := "", position := "", startDate := "2000.1", endDate := "2024.12",
           description := [], achievements := [] },
         { company := "", position := "", startDate := "2010.1", endDate := "2011.1",
           description := [], achievements := [] }] = 11 ∧
      Resume.claimedYears 2025 10 ""
        [{ company := "", position := "", startDate := "2000.1", endDate := "2024.12",
           description := [], achievements := [] },
         { company := "", position := "", startDate := "2010.1", endDate := "2011.1",
           description := [], achievements := [] }] = 15 := by
  constructor <;> rfl

/-- C1 witness: the two-record family of the counterexample has valid start
dates (2000.1 and 2010.1), and on it the code agrees with the amended
formula. -/
theorem C1_witness :
    Resume.validStarts 2025 10
        [{ company := "", position := "", startDate := "2000.1", endDate := "2024.12",
           description := [], achievements := [] },
         { company := "", position := "", startDate := "2010.1", endDate := "2011.1",
           description := [], achievements := [] }] ∧
      Resume.calculateYearsOfExperience 2025 10 ""
          [{ company := "", position := "", startDate := "2000.1", endDate := "2024.12",
             description := [], achievements := [] },
           { company := "", position := "", startDate := "2010.1", endDate := "2011.1",
             description := [], achievements := [] }]
        = Resume.amendedYears 2025 10 ""
          [{ company := "", position := "", startDate := "2000.1", endDate := "2024.12",
             description := [], achievements := [] },
           { company := "", position := "", startDate := "2010.1", endDate := "2011.1",
             description := [], achievements := [] }] :=
  ⟨by decide, C1_years_of_experience 2025 10 "" _ (by decide)⟩

/-- C5: language detection takes the CJK track exactly when the CJK-character
count exceeds 10% of the text length (`text.length`, i.e. UTF-16 units, as in
JS), and the Latin track at the boundary and below.  Being a total function
of the input string alone, the classification is pure: the same input always
yields the same language. -/
theorem C5_language_detection (t : String) :
    (Resume.detectLanguage t = Resume.Lang.zh ↔
        Resume.utf16Length t < 10 * Resume.cjkCount t) ∧
      (Resume.detectLanguage t = Resume.Lang.en ↔
        10 * Resume.cjkCount t ≤ Resume.utf16Length t) := by
  unfold Resume.detectLanguage
  by_cases h : Resume.utf16Length t < 10 * Resume.cjkCount t
  · rw [if_pos h]
    refine ⟨⟨fun _ => h, fun _ => rfl⟩,
      ⟨fun he => (nomatch he), fun hle => absurd hle (by omega)⟩⟩
  · rw [if_neg h]
    refine ⟨⟨fun he => (nomatch he), fun hlt => absurd hlt h⟩,
      ⟨fun _ => by omega, fun _ => rfl⟩⟩

/-- C6: a successful `executeStep` call (the only transition that touches
`currentStepIndex` in any reachable context) moves the index forward by at
most one; whenever it advances, the executed step's status is `completed`,
and if the executed step ended in `error` the index is unchanged. -/
theorem C6_index_advances_only_on_success {ρ : Type} (sid : String)
    (f : SeqThink.Executor ρ) (s s' : SeqThink.Ctx ρ)
    (h : SeqThink.executeStep sid f s = .ok s') :
    (s'.currentStepIndex = s.currentStepIndex ∨
        s'.currentStepIndex = s.currentStepIndex + 1) ∧
      (s'.currentStepIndex = s.currentStepIndex + 1 →
        (s.steps.findIdx? (fun st => st.id == sid)).bind (SeqThink.statusAt s')
          = some .completed) ∧
      ((s.steps.findIdx? (fun st => st.id == sid)).bind (SeqThink.statusAt s')
          = some .error → s'.currentStepIndex = s.currentStepIndex) := by
  obtain ⟨idx, st0, hfi, hg, hcase⟩ := SeqThink.executeStep_ok_cases h
  have hlt : idx < s.steps.length := by
    have := List.getElem?_eq_some_iff.mp hg
    exact this.1
  have hset : ∀ st : SeqThink.Step ρ,
      SeqThink.statusAt
        { s with steps := s.steps.set idx st,
                 currentStepIndex := if s.currentStepIndex < s.steps.length - 1
                   then s.currentStepIndex + 1 else s.currentStepIndex,
                 isProcessing := false, clock := s.clock + 2 } idx
        = some st.status := by
    intro st
    unfold SeqThink.statusAt
    rw [List.getElem?_set_self hlt]
    rfl
  have hsetE : ∀ st : SeqThink.Step ρ,
      SeqThink.statusAt
        { s with steps := s.steps.set idx st,
                 isProcessing := false, clock := s.clock + 2 } idx
        = some st.status := by
    intro st
    unfold SeqThink.statusAt
    rw [List.getElem?_set_self hlt]
    rfl
  rcases hcase with ⟨v, -, rfl⟩ | ⟨msg, -, rfl⟩
  · refine ⟨?_, ?_, ?_⟩
    · by_cases hc : s.currentStepIndex < s.steps.length - 1
      · right; simp [hc]
      · left; simp [hc]
    · intro _
      rw [hfi]
      simp only [Option.some_bind]
      exact hset _
    · intro hstat
      rw [hfi] at hstat
      simp only [Option.some_bind] at hstat
      rw [hset _] at hstat
      cases hstat
  · refine ⟨Or.inl rfl, ?_, ?_⟩
    · intro hadv
      simp only [] at hadv
      omega
    · intro _
      rfl

/-- C6 witness: a one-step pipeline whose step succeeds keeps the index at 0
(it is already the last step), exercising the theorem at a concrete input. -/
theorem C6_witness :
    ({ steps := [{ id := "step-0", title := "a", description := "x",
                   status := .completed, result := some 7, err := none,
                   timestamp := 2 }],
       currentStepIndex := 0, isProcessing := false, metadata := [],
       clock := 3 } : SeqThink.Ctx Nat).currentStepIndex
        = (SeqThink.construct Nat [("a", "x")]).currentStepIndex ∨
      ({ steps := [{ id := "step-0", title := "a", description := "x",
                     status := .completed, result := some 7, err := none,
                     timestamp := 2 }],
         currentStepIndex := 0, isProcessing := false, metadata := [],
         clock := 3 } : SeqThink.Ctx Nat).currentStepIndex
        = (SeqThink.construct Nat [("a", "x")]).currentStepIndex + 1 :=
  (C6_index_advances_only_on_success "step-0" (fun _ _ => Except.ok (7 : Nat))
    (SeqThink.construct Nat [("a", "x")]) _ (by rfl)).1

/-- C10: for a step id not present in the list, `getStepResult` returns no
value and raises no error (it is a pure read and cannot modify the context),
while `executeStep` on the same id fails with the not-found error. -/
theorem C10_unknown_id (ρ : Type) (s : SeqThink.Ctx ρ) (sid : String)
    (h : ∀ st ∈ s.steps, st.id ≠ sid) (f : SeqThink.Executor ρ) :
    SeqThink.getStepResult sid s = none ∧
      SeqThink.executeStep sid f s
        = .error ("Step with id " ++ sid ++ " not found") := by
  constructor
  · unfold SeqThink.getStepResult
    have hf : s.steps.find? (fun st => st.id == sid) = none := by
      rw [List.find?_eq_none]
      intro st hst
      simpa using h st hst
    rw [hf]
    rfl
  · unfold SeqThink.executeStep
    have hf : s.steps.findIdx? (fun st => st.id == sid) = none := by
      rw [List.findIdx?_eq_none_iff]
      intro st hst
      simpa using h st hst
    rw [hf]

/-- C10 witness at a concrete context and unknown id. -/
theorem C10_witness :
    SeqThink.getStepResult "nope" (SeqThink.construct Nat [("a", "x")]) = none ∧
      SeqThink.executeStep "nope" (fun _ _ => Except.ok 0)
          (SeqThink.construct Nat [("a", "x")])
        = .error ("Step with id " ++ "nope" ++ " not found") :=
  C10_unknown_id Nat (SeqThink.construct Nat [("a", "x")]) "nope"
    (by decide) (fun _ _ => Except.ok 0)

/-- C2: from a freshly constructed pipeline with an executor bound for every
step, a `runAll` that returns with no step in `error` leaves all N steps
`completed` with `currentStepIndex = N − 1`; and if the step at position k
ended in `error`, every step up to k is terminal (`completed` or `error`),
no step after k was executed (those records still equal the freshly
constructed ones), and steps k+1..N−1 remain `pending`. -/
theorem C2_executeAll_ordering {ρ : Type} (specs : List (String × String))
    (ex : SeqThink.ExecMap ρ) (s' : SeqThink.Ctx ρ)
    (hbound : ∀ st ∈ (SeqThink.construct ρ specs).steps,
      (SeqThink.lookupExec ex st.id).isSome)
    (hrun : SeqThink.executeAll ex (SeqThink.construct ρ specs) = .ok s') :
    ((∀ st ∈ s'.steps, st.status ≠ .error) →
        (∀ st ∈ s'.steps, st.status = .completed) ∧
          s'.currentStepIndex = s'.steps.length - 1) ∧
      (∀ k, SeqThink.statusAt s' k = some .error →
        (∀ j, j ≤ k → SeqThink.statusAt s' j = some .completed ∨
            SeqThink.statusAt s' j = some .error) ∧
          (∀ j, k < j → s'.steps[j]? = (SeqThink.construct ρ specs).steps[j]?) ∧
          (∀ j, k < j → j < s'.steps.length →
            SeqThink.statusAt s' j = some .pending)) := by
  have hmaster := SeqThink.runAllAux_fresh ex (SeqThink.construct ρ specs)
    (SeqThink.construct_allPending ρ specs) (SeqThink.construct_stdIds ρ specs)
    ((SeqThink.construct ρ specs).steps.length) 0
    (SeqThink.construct ρ specs) s' (by omega) rfl
    (SeqThink.construct_stdIds ρ specs)
    (fun j hj => absurd hj (Nat.not_lt_zero j))
    (fun j _ => rfl)
    (by simp [SeqThink.construct])
    hrun
  rcases hmaster with ⟨hlen, hids, hdisj⟩
  constructor
  · intro hnoerr
    rcases hdisj with ⟨hcompl, hidx⟩ | ⟨k, -, hkN, hkerr, -, -, -⟩
    · refine ⟨?_, by rw [hidx, hlen]⟩
      intro st hmem
      rcases List.mem_iff_getElem?.mp hmem with ⟨j, hj⟩
      exact hcompl j st hj
    · unfold SeqThink.statusAt at hkerr
      rcases Option.map_eq_some'.mp hkerr with ⟨st, hst, hstat⟩
      exact absurd hstat (hnoerr st (List.mem_iff_getElem?.mpr ⟨k, hst⟩))
  · intro k hkerr
    rcases hdisj with ⟨hcompl, -⟩ | ⟨k0, -, hk0N, hk0err, hk0before, hk0after, -⟩
    · unfold SeqThink.statusAt at hkerr
      rcases Option.map_eq_some'.mp hkerr with ⟨st, hst, hstat⟩
      rw [hcompl k st hst] at hstat
      cases hstat
    · have hkk0 : k = k0 := by
        rcases Nat.lt_trichotomy k k0 with hlt | heq | hgt
        · have := hk0before k hlt
          rw [this] at hkerr
          cases Option.some.inj hkerr
        · exact heq
        · have heqs := hk0after k hgt
          unfold SeqThink.statusAt at hkerr
          rw [heqs] at hkerr
          rcases Option.map_eq_some'.mp hkerr with ⟨st, hst, hstat⟩
          rw [SeqThink.allPending_getElem?
            (SeqThink.construct_allPending ρ specs) hst] at hstat
          cases hstat
      subst hkk0
      refine ⟨?_, hk0after, ?_⟩
      · intro j hj
        rcases Nat.lt_or_ge j k with hlt | hge
        · exact Or.inl (hk0before j hlt)
        · have : j = k := by omega
          subst this
          exact Or.inr hkerr
      · intro j hj hjlen
        have heqs := hk0after j hj
        unfold SeqThink.statusAt
        rw [heqs]
        have hjlt : j < (SeqThink.construct ρ specs).steps.length := by
          rw [← hlen]
          exact hjlen
        obtain ⟨st, hst⟩ : ∃ st, (SeqThink.construct ρ specs).steps[j]? = some st :=
          ⟨_, List.getElem?_eq_getElem hjlt⟩
        rw [hst]
        simp only [Option.map_some']
        rw [SeqThink.allPending_getElem? (SeqThink.construct_allPending ρ specs) hst]

/-- C2 witness: a fresh one-step pipeline run to completion. -/
theorem C2_witness :
    ((∀ st ∈ c2final.steps, st.status ≠ .error) →
        (∀ st ∈ c2final.steps, st.status = .completed) ∧
          c2final.currentStepIndex = c2final.steps.length - 1) ∧
      (∀ k, SeqThink.statusAt c2final k = some .error →
        (∀ j, j ≤ k → SeqThink.statusAt c2final j = some .completed ∨
            SeqThink.statusAt c2final j = some .error) ∧
          (∀ j, k < j → c2final.steps[j]?
            = (SeqThink.construct Nat [("a", "x")]).steps[j]?) ∧
          (∀ j, k < j → j < c2final.steps.length →
            SeqThink.statusAt c2final j = some .pending)) :=
  C2_executeAll_ordering [("a", "x")] exOkAll c2final (by decide) (by rfl)

/-- C9: re-invoking `runAll` on a context whose steps 0..k are already
`completed` leaves each of those step records — status, result and timestamp —
exactly unchanged (only the later, non-completed steps are executed). -/
theorem C9_runAll_idempotent {ρ : Type} (ex : SeqThink.ExecMap ρ)
    (s s' : SeqThink.Ctx ρ) (k : Nat)
    (hids : SeqThink.stdIds s.steps)
    (hdone : ∀ j, j ≤ k → SeqThink.statusAt s j = some .completed)
    (hrun : SeqThink.executeAll ex s = .ok s') :
    ∀ j, j ≤ k → s'.steps[j]? = s.steps[j]? := by
  intro j hj
  have hstat := hdone j hj
  unfold SeqThink.statusAt at hstat
  rcases Option.map_eq_some'.mp hstat with ⟨st, hst, hstc⟩
  rw [hst]
  exact SeqThink.runAllAux_preserves_completed ex _ 0 s s' hids hrun j st hst hstc

/-- C9 witness: re-running on `c9start` (step 0 completed) executes only
step 1 and leaves step 0's record identical. -/
theorem C9_witness : c9final.steps[0]? = c9start.steps[0]? :=
  C9_runAll_idempotent exOkAll c9start c9final 0
    (by decide) (by decide) (by rfl) 0 (by decide)

/-- C7 (amended): every step is created `pending` at construction; a step
never returns to `pending` (any step pending after a `runAll` is the
untouched original), and an executed step always ends `completed` or
`error`.  The claim's "immutable once `error`" clause is dropped: it fails
on the code (see the counterexample), because `executeAll` skips only
`completed` steps and so re-executes errored ones, and `executeStep` re-runs
any step by id regardless of status. -/
theorem C7_step_lifecycle (ρ : Type) :
    (∀ (specs : List (String × String)) (j : Nat) (st : SeqThink.Step ρ),
        (SeqThink.construct ρ specs).steps[j]? = some st → st.status = .pending) ∧
      (∀ (ex : SeqThink.ExecMap ρ) (s s' : SeqThink.Ctx ρ),
        SeqThink.executeAll ex s = .ok s' →
        ∀ (j : Nat) (st' : SeqThink.Step ρ), s'.steps[j]? = some st' →
          st'.status = .pending → s.steps[j]? = some st') ∧
      (∀ (sid : String) (f : SeqThink.Executor ρ) (s s' : SeqThink.Ctx ρ) (idx : Nat),
        SeqThink.executeStep sid f s = .ok s' →
        s.steps.findIdx? (fun st => st.id == sid) = some idx →
        SeqThink.statusAt s' idx = some .completed ∨
          SeqThink.statusAt s' idx = some .error) := by
  refine ⟨?_, ?_, ?_⟩
  · intro specs j st hj
    exact SeqThink.allPending_getElem? (SeqThink.construct_allPending ρ specs) hj
  · intro ex s s' hrun j st' hj hp
    exact SeqThink.runAllAux_no_revert ex _ 0 s s' hrun j st' hj hp
  · intro sid f s s' idx hes hfi
    obtain ⟨idx', st0, hfi', hg, hcase⟩ := SeqThink.executeStep_ok_cases hes
    rw [hfi'] at hfi
    have hii : idx' = idx := Option.some.inj hfi
    subst hii
    have hilt : idx' < s.steps.length := (List.getElem?_eq_some_iff.mp hg).1
    rcases hcase with ⟨v, -, rfl⟩ | ⟨msg, -, rfl⟩
    · left
      unfold SeqThink.statusAt
      simp only [List.getElem?_set_self hilt]
      simp [SeqThink.doneStep]
    · right
      unfold SeqThink.statusAt
      simp only [List.getElem?_set_self hilt]
      simp [SeqThink.failStep]

/-- C7 witness: a concrete successful `executeStep` leaves the executed step
in a terminal status. -/
theorem C7_witness :
    SeqThink.statusAt c2final 0 = some .completed ∨
      SeqThink.statusAt c2final 0 = some .error :=
  (C7_step_lifecycle Nat).2.2 "step-0" (fun _ _ => Except.ok 0)
    (SeqThink.construct Nat [("a", "x")]) c2final 0 (by rfl) (by rfl)

/-- C7 counterexample to the claim as stated: run a one-step pipeline with a
failing executor (step 0 ends in `error`), then invoke `runAll` again with a
succeeding executor: the errored step is re-executed and its status changes
to `completed` — an errored step is not immutable. -/
theorem C7_counterexample :
    (SeqThink.executeAll
        (fun sid => if sid = "step-0"
          then some (fun _ _ => Except.error "boom") else none)
        (SeqThink.construct Nat [("t", "d")])).map
      (fun s1 => SeqThink.statusAt s1 0) = .ok (some .error) ∧
      ((SeqThink.executeAll
          (fun sid => if sid = "step-0"
            then some (fun _ _ => Except.error "boom") else none)
          (SeqThink.construct Nat [("t", "d")])).bind
        (fun s1 => SeqThink.executeAll
          (fun sid => if sid = "step-0"
            then some (fun _ _ => Except.ok 1) else none) s1)).map
        (fun s2 => SeqThink.statusAt s2 0) = .ok (some .completed) := by
  constructor <;> rfl

/-- C3: when a run fails (some step ends with status `error`, so later steps
never run), `analyzeResume` does not assemble a complete final
`ResumeAnalysisResult`: some of the five post-parse components is missing —
the record is complete only when all five step results exist, which a failed
run never provides. -/
theorem C3_no_complete_result_on_failure {ρ : Type} (ex : SeqThink.ExecMap ρ)
    (rt : String) (tj : Option String) (res : Resume.ResumeAnalysisResult ρ)
    (s' : SeqThink.Ctx ρ)
    (hrun : Resume.analyzeResume ex rt tj = .ok (res, s'))
    (k : Nat) (hfail : SeqThink.statusAt s' k = some .error) :
    ¬ Resume.completeResult res := by
  unfold Resume.analyzeResume at hrun
  cases hea : SeqThink.executeAll ex (Resume.analyzerInit ρ rt tj) with
  | error e =>
    rw [hea] at hrun
    cases hrun
  | ok s2 =>
    rw [hea] at hrun
    have hpair := Except.ok.inj hrun
    have hres : res = Resume.buildResult s2 (Resume.detectLanguage rt) :=
      (congrArg Prod.fst hpair).symm
    have hs2 : s2 = s' := congrArg Prod.snd hpair
    subst hs2
    have hsteps : (Resume.analyzerInit ρ rt tj).steps
        = (SeqThink.construct ρ Resume.resumeAnalysisSteps).steps := rfl
    have hfresh : SeqThink.allPending (Resume.analyzerInit ρ rt tj).steps := by
      rw [hsteps]
      exact SeqThink.construct_allPending ρ Resume.resumeAnalysisSteps
    have hids0 : SeqThink.stdIds (Resume.analyzerInit ρ rt tj).steps := by
      rw [hsteps]
      exact SeqThink.construct_stdIds ρ Resume.resumeAnalysisSteps
    have hN : (Resume.analyzerInit ρ rt tj).steps.length = 6 := rfl
    have hmaster := SeqThink.runAllAux_fresh ex (Resume.analyzerInit ρ rt tj)
      hfresh hids0 ((Resume.analyzerInit ρ rt tj).steps.length) 0
      (Resume.analyzerInit ρ rt tj) s2 (by omega) rfl hids0
      (fun j hj => absurd hj (Nat.not_lt_zero j))
      (fun j _ => rfl)
      (by simp [Resume.analyzerInit, SeqThink.updateMetadata, SeqThink.construct])
      hea
    rcases hmaster with ⟨hlen, hids, hdisj⟩
    rcases hdisj with ⟨hcompl, -⟩ | ⟨k0, -, hk0N, -, -, hafter, hresk⟩
    · unfold SeqThink.statusAt at hfail
      rcases Option.map_eq_some'.mp hfail with ⟨st, hst, hstat⟩
      rw [hcompl k st hst] at hstat
      cases hstat
    · have hres0 : ∀ m, k0 < m →
          SeqThink.getStepResult (SeqThink.stepId m) s2 = none := by
        intro m hm
        rw [SeqThink.getStepResult_stepId hids]
        rw [hafter m hm]
        cases hm0 : (Resume.analyzerInit ρ rt tj).steps[m]? with
        | none => rfl
        | some st =>
          have hz : st.result = none := by
            rw [hsteps] at hm0
            exact SeqThink.construct_result_none ρ _ hm0
          simp [hz]
      have hresk0 : SeqThink.getStepResult (SeqThink.stepId k0) s2 = none := by
        rw [SeqThink.getStepResult_stepId hids]
        unfold SeqThink.resultAt at hresk
        cases hk2 : s2.steps[k0]? with
        | none => rfl
        | some st =>
          rw [hk2] at hresk
          cases hk0' : (Resume.analyzerInit ρ rt tj).steps[k0]? with
          | none =>
            rw [hk0'] at hresk
            cases hresk
          | some st0 =>
            rw [hk0'] at hresk
            have h0 : st0.result = none := by
              rw [hsteps] at hk0'
              exact SeqThink.construct_result_none ρ _ hk0'
            have hsr : st.result = st0.result := by simpa using hresk
            simp [hsr, h0]
      have key : ∃ m, 1 ≤ m ∧ m ≤ 5 ∧
          SeqThink.getStepResult (SeqThink.stepId m) s2 = none := by
        by_cases hk00 : k0 = 0
        · exact ⟨1, le_refl 1, by omega, hres0 1 (by omega)⟩
        · exact ⟨k0, by omega, by omega, hresk0⟩
      intro hcomp
      rw [hres] at hcomp
      obtain ⟨m, hm1, hm5, hn⟩ := key
      interval_cases m
      · have h1 := hcomp.1
        have hn' : SeqThink.getStepResult "step-1" s2 = none := hn
        unfold Resume.buildResult at h1
        simp [hn'] at h1
      · have h1 := hcomp.2.1
        have hn' : SeqThink.getStepResult "step-2" s2 = none := hn
        unfold Resume.buildResult at h1
        simp [hn'] at h1
      · have h1 := hcomp.2.2.1
        have hn' : SeqThink.getStepResult "step-3" s2 = none := hn
        unfold Resume.buildResult at h1
        simp [hn'] at h1
      · have h1 := hcomp.2.2.2.1
        have hn' : SeqThink.getStepResult "step-4" s2 = none := hn
        unfold Resume.buildResult at h1
        simp [hn'] at h1
      · have h1 := hcomp.2.2.2.2
        have hn' : SeqThink.getStepResult "step-5" s2 = none := hn
        unfold Resume.buildResult at h1
        simp [hn'] at h1

/-- C3 witness: a concrete failed run (step 1 throws) assembles an
incomplete record. -/
theorem C3_witness : ¬ Resume.completeResult c3res :=
  C3_no_complete_result_on_failure exC3 "" none c3res c3ctx (by rfl) 1 (by rfl)

/-- C4: `determineAITag` returns `developer` when the concatenated
lower-cased text contains a strong developer-title literal or the doubled
developer keyword score is at least 3; otherwise `practitioner` when the
maximum category score is 0; otherwise the highest-scoring category with
ties broken by the fixed priority developer > researcher > founder >
teacher > designer > creator. -/
theorem C4_determineAITag (rt : String) (pr : Resume.ParsedResume) :
    Resume.determineAITag rt pr = Resume.determineAITagSpec rt pr := by
  unfold Resume.determineAITag Resume.determineAITagSpec
  dsimp only
  split
  · rfl
  · split
    · rfl
    · exact Resume.cascadePick _ _ _ _ _ _ _

/-- C8 (code bug): stage 3 is supposed to leave the stage-0 `ParsedResume`
read-only, but `assessExperience` calls `workExp.sort(...)` on the aliased
`parsedResume.workExperience` array, which sorts it in place: with the 2020
record listed before the 2010 record, the stage-0 list comes back reordered. -/
theorem C8_assessExperience_mutates_stage0 :
    (Resume.assessExperience c8pr).2.workExperience = [c8older, c8newer] ∧
      c8pr.workExperience = [c8newer, c8older] ∧
      (Resume.assessExperience c8pr).2.workExperience ≠ c8pr.workExperience := by
  refine ⟨rfl, rfl, ?_⟩
  decide
